import Mathlib

/-!
Verification of the RustPython hybrid reference-counting / cycle-collecting
garbage collector (vm/src/object/gc).

The embedding models the collector at the level of object headers and the
collector's shared state.  Objects are identified by indices in `Fin n`; the
owned-reference graph is a parameter `ch : Fin n → List (Fin n)` mirroring the
`Traverse`/`GcTrace` capability (each stored strong reference occurs once in
the list).  Header fields follow `GcHeader` in header.rs; the collector's root
buffer, enabled flag and allocation counters follow `Collector` in
collector.rs.  The memory-touching vtable calls (`call_vtable_drop_only`,
`dealloc_only`), whose bodies free real memory, are modelled as setting the
header's one-shot `is_drop` / `is_dealloc` guards and recording an event;
their internal effect on the payload lives outside the embedded module.
Recursive graph walks (`mark_gray`, `scan`, `collect_white`) are modelled with
an explicit fuel parameter; every theorem that needs completeness of a walk
carries an explicit bound relating the fuel to the number of objects.
-/

namespace RPGc

/-- Color of an object header, from header.rs (`enum Color`). -/
inductive Color where
  | black
  | gray
  | white
  | purple
deriving DecidableEq, Repr

/-- Result of a decrement, from utils.rs (`enum GcStatus`): exactly these four
variants exist in the source. -/
inductive GcStatus where
  | shouldDrop
  | bufferedDrop
  | shouldKeep
  | doNothing
deriving DecidableEq, Repr

/-- Per-object header, from `GcHeader` in header.rs: ref count, color,
in-cycle flag, buffered flag, one-shot drop/dealloc guards and leak flag. -/
structure Header where
  rc : Nat
  color : Color
  buffered : Bool
  inCycle : Bool
  isDrop : Bool
  isDealloc : Bool
  leaked : Bool
deriving DecidableEq, Repr

/-- Observable teardown events of a collection pass: a `__del__` call
(`PyObject::call_del`), a destructor-only run (`call_vtable_drop_only`) and a
memory-free (`dealloc_only`). -/
inductive Event (n : Nat) where
  | delCall (i : Fin n)
  | dropOnly (i : Fin n)
  | deallocOnly (i : Fin n)
deriving DecidableEq, Repr

/-- Global state: the headers of all `n` objects together with the
`Collector` fields of collector.rs (root buffer, enabled switch and the
GcCond counters used by `need_gc`), plus the recorded teardown events. -/
structure St (n : Nat) where
  hd : Fin n → Header
  roots : List (Fin n)
  events : List (Event n)
  enabled : Bool
  allocCnt : Nat
  deallocCnt : Nat
  threshold : Nat
  rootMax : Nat

variable {n : Nat}

/-- Pointwise header update. -/
def St.upd (s : St n) (i : Fin n) (f : Header → Header) : St n :=
  { s with hd := fun j => if j = i then f (s.hd j) else s.hd j }

def St.color (s : St n) (i : Fin n) : Color := (s.hd i).color

def St.rc (s : St n) (i : Fin n) : Nat := (s.hd i).rc

def St.buffered (s : St n) (i : Fin n) : Bool := (s.hd i).buffered

def St.setColor (s : St n) (i : Fin n) (c : Color) : St n :=
  s.upd i (fun h => { h with color := c })

def St.setBuffered (s : St n) (i : Fin n) (b : Bool) : St n :=
  s.upd i (fun h => { h with buffered := b })

def St.setInCycle (s : St n) (i : Fin n) (b : Bool) : St n :=
  s.upd i (fun h => { h with inCycle := b })

/-- `GcHeader::dec`: `ref_cnt -= 1` (the source never underflows in a valid
run; saturating subtraction on `Nat`). -/
def St.decRc (s : St n) (i : Fin n) : St n :=
  s.upd i (fun h => { h with rc := h.rc - 1 })

/-- `GcHeader::inc`: `ref_cnt += 1`. -/
def St.incRc (s : St n) (i : Fin n) : St n :=
  s.upd i (fun h => { h with rc := h.rc + 1 })

def St.pushEvent (s : St n) (e : Event n) : St n :=
  { s with events := s.events ++ [e] }

/-- `PyObject::call_vtable_drop_only` (utils.rs): runs the destructor without
deallocating.  Modelled by the `is_drop` one-shot guard plus an event. -/
def dropOnlyStep (s : St n) (i : Fin n) : St n :=
  (s.upd i (fun h => { h with isDrop := true })).pushEvent (Event.dropOnly i)

/-- `PyObject::dealloc_only` (drop_object.rs): frees the allocation without
running the destructor.  Modelled by the `is_dealloc` guard plus an event. -/
def deallocOnlyStep (s : St n) (i : Fin n) : St n :=
  (s.upd i (fun h => { h with isDealloc := true })).pushEvent (Event.deallocOnly i)

/-- `Collector::possible_root` (collector.rs 502-513): if the color is not
Purple, color Purple, and if not yet buffered, set buffered and push onto the
root buffer.  (`CcSync::possible_root` in collector_sync.rs 224-237 is the
same operation.) -/
def possibleRoot (s : St n) (o : Fin n) : St n :=
  if s.color o ≠ Color.purple then
    let s1 := s.setColor o Color.purple
    if s1.buffered o = false then
      let s2 := s1.setBuffered o true
      { s2 with roots := s2.roots ++ [o] }
    else s1
  else s

/-- `Collector::release` (collector.rs 480-500): color the object Black and
return `BufferedDrop` when buffered, `ShouldDrop` otherwise. -/
def release (s : St n) (o : Fin n) : St n × GcStatus :=
  let s1 := s.setColor o Color.black
  (s1, if s1.buffered o then GcStatus.bufferedDrop else GcStatus.shouldDrop)

/-- `Collector::decrement` (collector.rs 451-475): keep leaked objects, do
nothing at ref count 0, otherwise decrement; on reaching 0 bump the dealloc
counter and release, else buffer as possible root and keep. -/
def decrement (s : St n) (o : Fin n) : St n × GcStatus :=
  if (s.hd o).leaked then (s, GcStatus.shouldKeep)
  else if 0 < s.rc o then
    let s1 := s.decRc o
    if s1.rc o = 0 then
      release { s1 with deallocCnt := s1.deallocCnt + 1 } o
    else
      (possibleRoot s1 o, GcStatus.shouldKeep)
  else (s, GcStatus.doNothing)

/-- `CcSync::release` (collector_sync.rs 202-222): identical decision to
`Collector::release`. -/
def ccRelease (s : St n) (o : Fin n) : St n × GcStatus :=
  let s1 := s.setColor o Color.black
  (s1, if s1.buffered o = false then GcStatus.shouldDrop else GcStatus.bufferedDrop)

/-- `CcSync::decrement` (collector_sync.rs 174-200): like
`Collector::decrement` but only traceable objects (those whose type id is in
`TRACEABLE_TYPE`, trace.rs 102-106) are buffered as possible roots; a
non-traceable object is kept without buffering. -/
def ccDecrement (traceable : Fin n → Bool) (s : St n) (o : Fin n) : St n × GcStatus :=
  if (s.hd o).leaked then (s, GcStatus.shouldKeep)
  else if 0 < s.rc o then
    let s1 := s.decRc o
    if s1.rc o = 0 then ccRelease s1 o
    else if traceable o then (possibleRoot s1 o, GcStatus.shouldKeep)
    else (s1, GcStatus.shouldKeep)
  else (s, GcStatus.doNothing)

/-- `need_gc` (collector.rs 544-561): true when
`alloc_cnt > threshold + dealloc_cnt` or the buffer outgrows
`root_cleanup_size`, and the collector is enabled; counters reset on true. -/
def needGc (s : St n) : Bool × St n :=
  let gcCond : Bool :=
    decide (s.threshold + s.deallocCnt < s.allocCnt) || decide (s.rootMax < s.roots.length)
  let ret := gcCond && s.enabled
  if ret then (true, { s with allocCnt := 0, deallocCnt := 0 }) else (false, s)

/-- `GcHeader::check_set_drop_only` (header.rs 122-134): refuse when already
deallocated or already dropped, else set the drop guard and report success. -/
def checkSetDropOnly (h : Header) : Header × Bool :=
  if h.isDealloc then (h, false)
  else if h.isDrop = false then ({ h with isDrop := true }, true)
  else (h, false)

/-- `GcHeader::check_set_dealloc_only` (header.rs 137-150): refuse when not
yet dropped or already deallocated, else set the dealloc guard. -/
def checkSetDeallocOnly (h : Header) : Header × Bool :=
  if h.isDrop = false then (h, false)
  else if h.isDealloc = false then ({ h with isDealloc := true }, true)
  else (h, false)

/-- `Collector::mark_gray` (collector.rs 220-231): if not Gray, color Gray and
for every non-leaked child decrement its ref count and recurse.  The `fuel`
argument bounds the recursion depth of the shallow embedding. -/
def markGray (ch : Fin n → List (Fin n)) : Nat → St n → Fin n → St n
  | 0, s, _ => s
  | fuel + 1, s, o =>
    if s.color o = Color.gray then s
    else
      let s1 := s.setColor o Color.gray
      (ch o).foldl
        (fun t c =>
          if (t.hd c).leaked then t
          else markGray ch fuel (t.decRc c) c)
        s1

/-- `Collector::scan_black` (collector.rs 263-277): color Black, re-increment
every non-leaked child and recurse into children that are not Black. -/
def scanBlack (ch : Fin n → List (Fin n)) : Nat → St n → Fin n → St n
  | 0, s, _ => s
  | fuel + 1, s, o =>
    let s1 := s.setColor o Color.black
    (ch o).foldl
      (fun t c =>
        if (t.hd c).leaked then t
        else
          let t1 := t.incRc c
          if t1.color c ≠ Color.black then scanBlack ch fuel t1 c else t1)
      s1

/-- `Collector::scan` (collector.rs 247-261): a Gray object with positive ref
count is rescued via `scan_black`; a Gray object at ref count 0 is colored
White and scanning recurses into its non-leaked children. -/
def scan (ch : Fin n → List (Fin n)) : Nat → St n → Fin n → St n
  | 0, s, _ => s
  | fuel + 1, s, o =>
    if s.color o = Color.gray then
      if 0 < s.rc o then scanBlack ch fuel s o
      else
        let s1 := s.setColor o Color.white
        (ch o).foldl
          (fun t c =>
            if (t.hd c).leaked then t
            else scan ch fuel t c)
          s1
    else s

/-- `Collector::collect_white` (collector.rs 320-332): a White, unbuffered
object is colored Black, marked in-cycle, its non-leaked children are
collected recursively, and it is appended to the white list afterwards. -/
def collectWhite (ch : Fin n → List (Fin n)) :
    Nat → St n → Fin n → List (Fin n) → St n × List (Fin n)
  | 0, s, _, acc => (s, acc)
  | fuel + 1, s, o, acc =>
    if s.color o = Color.white ∧ s.buffered o = false then
      let s1 := (s.setColor o Color.black).setInCycle o true
      let p :=
        (ch o).foldl
          (fun (p : St n × List (Fin n)) c =>
            if ((p.1).hd c).leaked then p
            else collectWhite ch fuel p.1 c p.2)
          (s1, acc)
      (p.1, p.2 ++ [o])
    else (s, acc)

/-- One iteration of the drained-buffer loop of `Collector::mark_roots`
(collector.rs 187-218): a Purple entry is marked gray and kept, any other
entry is unbuffered and, when Black with ref count 0, deallocated on the spot
as acyclic garbage (counted in the tally). -/
def markRootsStep (ch : Fin n → List (Fin n)) (fuel : Nat)
    (p : St n × List (Fin n) × Nat) (r : Fin n) : St n × List (Fin n) × Nat :=
  let t := p.1
  if t.color r = Color.purple then
    (markGray ch fuel t r, p.2.1 ++ [r], p.2.2)
  else
    let t1 := t.setBuffered r false
    if t1.color r = Color.black ∧ t1.rc r = 0 then
      (deallocOnlyStep t1 r, p.2.1, p.2.2 + 1)
    else (t1, p.2.1, p.2.2)

/-- `Collector::mark_roots`, assembled from `markRootsStep` applied to the
drained buffer, with the kept entries appended back. -/
def markRoots (ch : Fin n → List (Fin n)) (fuel : Nat) (s : St n) : St n × Nat :=
  let old := s.roots
  let s0 : St n := { s with roots := [] }
  let p := old.foldl (markRootsStep ch fuel) (s0, [], 0)
  ({ p.1 with roots := p.1.roots ++ p.2.1 }, p.2.2)

/-- `Collector::scan_roots` (collector.rs 233-245): scan every buffered
object in place. -/
def scanRoots (ch : Fin n → List (Fin n)) (fuel : Nat) (s : St n) : St n :=
  s.roots.foldl (fun t r => scan ch fuel t r) s

/-- One iteration of the drained-buffer loop of `Collector::collect_roots`
(collector.rs 293-300): clear the former root's buffered flag and collect its
White descendants. -/
def collectRootsStep (ch : Fin n → List (Fin n)) (fuel : Nat)
    (p : St n × List (Fin n)) (r : Fin n) : St n × List (Fin n) :=
  let t := p.1.setBuffered r false
  collectWhite ch fuel t r p.2

/-- The collection part of `Collector::collect_roots` (collector.rs 279-319):
drain the buffer and, for each former root, clear its buffered flag and
collect its White descendants into the flat white list. -/
def collectRootsWhite (ch : Fin n → List (Fin n)) (fuel : Nat) (s : St n) :
    St n × List (Fin n) :=
  let rs := s.roots
  let s0 : St n := { s with roots := [] }
  rs.foldl (collectRootsStep ch fuel) (s0, [])

/-- `PyObject::call_del` (utils.rs 93-129): with no `__del__` slot the call
trivially succeeds; otherwise the protocol of `call_slot_del` runs: a
protective increment, the `__del__` body (an arbitrary state transformer
`f`), then a decrement whose result decides resurrection — a nonzero ref
count afterwards reports failure (`Err`), i.e. the object was resurrected. -/
def callDel (del : Fin n → Option (St n → St n)) (s : St n) (i : Fin n) :
    St n × Bool :=
  match del i with
  | none => (s, true)
  | some f =>
    let s1 := s.incRc i
    let s2 := f s1
    let s3 := (s2.decRc i).pushEvent (Event.delCall i)
    (s3, decide (s3.rc i = 0))

/-- Step 0 of `Collector::free_cycles` (collector.rs 356-373): re-increment
every non-leaked child with positive ref count of every white-list member, to
balance the upcoming destructor-driven decrements. -/
def freeCyclesInc (ch : Fin n → List (Fin n)) (s : St n) (white : List (Fin n)) :
    St n :=
  white.foldl
    (fun t i =>
      (ch i).foldl
        (fun t c =>
          if (t.hd c).leaked then t
          else if 0 < t.rc c then t.incRc c else t)
        t)
    s

/-- One iteration of the `__del__` filter loop of `Collector::free_cycles`
(collector.rs 377-392): run `call_del`; on success keep the member, on
resurrection exclude it and, when not already buffered, set its buffered flag
and put it on the resurrected list. -/
def freeCyclesFilterStep (del : Fin n → Option (St n → St n))
    (p : St n × List (Fin n) × List (Fin n)) (i : Fin n) :
    St n × List (Fin n) × List (Fin n) :=
  let q := callDel del p.1 i
  if q.2 then (q.1, p.2.1, p.2.2 ++ [i])
  else if q.1.buffered i then (q.1, p.2.1, p.2.2)
  else ((q.1.setBuffered i true), p.2.1 ++ [i], p.2.2)

/-- The `__del__` filter of `Collector::free_cycles` (collector.rs 375-392):
run `call_del` on each white-list member; members whose finalizer resurrects
them are excluded and, when not already buffered, re-buffered (flag set, kept
aside on the resurrected list); the rest stay on the kept list. -/
def freeCyclesFilter (del : Fin n → Option (St n → St n)) (s : St n)
    (white : List (Fin n)) : St n × List (Fin n) × List (Fin n) :=
  white.foldl (freeCyclesFilterStep del) (s, [], [])

/-- `Collector::free_cycles` (collector.rs 338-424): balance child counts,
run the `__del__` filter, clear weak references (no effect on the embedded
header state), append the resurrected objects to the root buffer, then run
the destructor pass over the whole kept list followed by the dealloc pass
over the same list, and report how many were freed. -/
def freeCycles (ch : Fin n → List (Fin n)) (del : Fin n → Option (St n → St n))
    (s : St n) (white : List (Fin n)) : St n × Nat :=
  let s0 := freeCyclesInc ch s white
  let q := freeCyclesFilter del s0 white
  let s2 : St n := { q.1 with roots := q.1.roots ++ q.2.1 }
  let s3 := q.2.2.foldl (fun t i => dropOnlyStep t i) s2
  let s4 := q.2.2.foldl (fun t i => deallocOnlyStep t i) s3
  (s4, q.2.2.length)

/-- `Collector::collect_roots` (collector.rs 279-319): collect the white
list, remember its length as the cyclic tally, then free it. -/
def collectRoots (ch : Fin n → List (Fin n)) (del : Fin n → Option (St n → St n))
    (fuel : Nat) (s : St n) : St n × Nat :=
  let p := collectRootsWhite ch fuel s
  let s2 := (freeCycles ch del p.1 p.2).1
  (s2, p.2.length)

/-- `Collector::collect_cycles` (collector.rs 163-185): with the pause lock
acquired (lock acquisition always succeeds in the single-mutator model and
`cleanup_cycle` is never held in this snapshot), an empty buffer returns
`(0, 0)`; otherwise mark roots, scan roots and collect roots, returning the
acyclic and cyclic tallies. -/
def collectCycles (ch : Fin n → List (Fin n)) (del : Fin n → Option (St n → St n))
    (fuel : Nat) (s : St n) (_force : Bool) : St n × Nat × Nat :=
  if s.roots.length = 0 then (s, 0, 0)
  else
    let p := markRoots ch fuel s
    let s2 := scanRoots ch fuel p.1
    let q := collectRoots ch del fuel s2
    (q.1, p.2, q.2)

/-- Reachability along owned references: `Reach ch u v` when `v` can be
reached from `u` by following children. -/
def Reach (ch : Fin n → List (Fin n)) : Fin n → Fin n → Prop :=
  Relation.ReflTransGen (fun a b => b ∈ ch a)

/-- The set of Gray objects of a state. -/
def grayF (s : St n) : Finset (Fin n) :=
  Finset.univ.filter (fun v => s.color v = Color.gray)

/-- The set of White objects of a state. -/
def whiteF (s : St n) : Finset (Fin n) :=
  Finset.univ.filter (fun v => s.color v = Color.white)

/-- Number of owned references into `v` held by the members of `A` (with
multiplicity): the number of trial decrements `mark_gray` applies to `v` when
it grays exactly `A`. -/
def decFrom (ch : Fin n → List (Fin n)) (A : Finset (Fin n)) (v : Fin n) : Nat :=
  ∑ u ∈ A, (ch u).count v

/-- Total number of owned references into `v` (in-degree with multiplicity). -/
def indeg (ch : Fin n → List (Fin n)) (v : Fin n) : Nat :=
  decFrom ch Finset.univ v

/-- The buffer invariant of P6, generalized by a list `res` of pending
re-buffered entries: the buffer together with `res` has no duplicates, and an
object's buffered flag is set exactly when it occurs in buffer or `res`. -/
def BufInvX (s : St n) (res : List (Fin n)) : Prop :=
  (s.roots ++ res).Nodup ∧ ∀ o, (s.hd o).buffered = true ↔ o ∈ s.roots ++ res

/-- The buffer invariant of P6: the root buffer holds no object twice, and an
object's buffered flag is set exactly when it has an entry in the buffer. -/
def BufInv (s : St n) : Prop :=
  s.roots.Nodup ∧ ∀ o, (s.hd o).buffered = true ↔ o ∈ s.roots

/-- Finalizer discipline for the buffer invariant: every `__del__` effect
preserves the (generalized) buffer invariant, as any composition of the
mutator operations does. -/
def DelBufSafe (del : Fin n → Option (St n → St n)) : Prop :=
  ∀ i f, del i = some f → ∀ (t : St n) (res : List (Fin n)),
    BufInvX t res → BufInvX (f t) res

/-- The atomic operations of the collector that touch the root buffer:
buffering a possible root, a mutator decrement, and the mark / scan / collect
phases of a pass (the collect phase includes `free_cycles` and with it the
resurrection re-buffering). -/
inductive GcStep (ch : Fin n → List (Fin n)) (del : Fin n → Option (St n → St n)) :
    St n → St n → Prop where
  | pRoot (s : St n) (o : Fin n) : GcStep ch del s (possibleRoot s o)
  | dec (s : St n) (o : Fin n) : GcStep ch del s (decrement s o).1
  | mark (s : St n) (fuel : Nat) : GcStep ch del s (markRoots ch fuel s).1
  | scanR (s : St n) (fuel : Nat) : GcStep ch del s (scanRoots ch fuel s)
  | collectR (s : St n) (fuel : Nat) : GcStep ch del s (collectRoots ch del fuel s).1

/-- States agreeing on everything except colors and ref counts: the footprint
of `mark_gray`, `scan` and `scan_black`. -/
def HFrame (s s' : St n) : Prop :=
  s'.roots = s.roots ∧ s'.events = s.events ∧ s'.enabled = s.enabled ∧
  ∀ v, (s'.hd v).buffered = (s.hd v).buffered ∧
    (s'.hd v).inCycle = (s.hd v).inCycle ∧
    (s'.hd v).isDrop = (s.hd v).isDrop ∧
    (s'.hd v).isDealloc = (s.hd v).isDealloc ∧
    (s'.hd v).leaked = (s.hd v).leaked

/-- Effect summary of a `collect_white` call going from `(s, acc)` to
`(s', acc')`: the accumulator only grows, every appended object was White at
entry and is in-cycle afterwards, colors only move White to Black, in-cycle
flags only get set, everything except colors and in-cycle flags is untouched,
and an all-Black duplicate-free accumulator stays all-Black and
duplicate-free. -/
def CWRel (s : St n) (acc : List (Fin n)) (s' : St n) (acc' : List (Fin n)) : Prop :=
  (∀ x ∈ acc, x ∈ acc') ∧
  (∀ x ∈ acc', x ∈ acc ∨ s.color x = Color.white) ∧
  (∀ v, s'.color v = s.color v ∨ (s.color v = Color.white ∧ s'.color v = Color.black)) ∧
  (∀ x ∈ acc', x ∈ acc ∨ (s'.hd x).inCycle = true) ∧
  (∀ v, (s.hd v).inCycle = true → (s'.hd v).inCycle = true) ∧
  (s'.roots = s.roots ∧ s'.events = s.events ∧
    ∀ v, (s'.hd v).buffered = (s.hd v).buffered ∧ (s'.hd v).rc = (s.hd v).rc ∧
      (s'.hd v).leaked = (s.hd v).leaked ∧ (s'.hd v).isDrop = (s.hd v).isDrop ∧
      (s'.hd v).isDealloc = (s.hd v).isDealloc) ∧
  ((acc.Nodup ∧ ∀ v ∈ acc, s.color v = Color.black) →
    (acc'.Nodup ∧ ∀ v ∈ acc', s'.color v = Color.black))

/-- Concrete header builder used by the concrete test states. -/
def mkHdr (r : Nat) (c : Color) (bf icy dr da lk : Bool) : Header :=
  { rc := r, color := c, buffered := bf, inCycle := icy, isDrop := dr,
    isDealloc := da, leaked := lk }

/-- Concrete one-object state with the default GcCond thresholds. -/
def mkSt1 (h : Header) (rts : List (Fin 1)) (en : Bool) : St 1 :=
  { hd := fun _ => h, roots := rts, events := [], enabled := en,
    allocCnt := 0, deallocCnt := 0, threshold := 700, rootMax := 10000 }

/-- One-object heap holding a single self reference: the smallest garbage
cycle. -/
def chLoop : Fin 1 → List (Fin 1) := fun _ => [0]

/-- No object has a `__del__` slot. -/
def delNone1 : Fin 1 → Option (St 1 → St 1) := fun _ => none

/-- A finalizer that resurrects object 0 by storing one new strong reference
to it. -/
def delRes1 : Fin 1 → Option (St 1 → St 1) := fun _ => some (fun s => s.incRc 0)

/-- A candidate-garbage object (ref count already trial-deleted to 0) about
to be torn down. -/
def stRes : St 1 := mkSt1 (mkHdr 0 Color.black false false false false false) [] true

/-- The one-object garbage cycle with its root buffered: ref count 1 (the one
self reference), colored Purple and buffered. -/
def stLoop : St 1 := mkSt1 (mkHdr 1 Color.purple true false false false false) [0] true

/-- A freshly allocated object: ref count 1, Black, unbuffered, empty
buffer. -/
def stInit : St 1 := mkSt1 (mkHdr 1 Color.black false false false false false) [] true

end RPGc

namespace RPGc

/-! Claim C4. -/

/-- Claim C4 counterexample: with `in_cycle` set (and not buffered), an object
reaching ref count 0 inside `decrement` gets `ShouldDrop` — exactly the
result it gets with `in_cycle` clear — and `GcStatus` has no `GarbageCycle`
variant at all, so `release` cannot return one. -/
theorem C4_release_in_cycle_counterexample :
    (decrement (mkSt1 (mkHdr 1 Color.black false true false false false) [] true) 0).2 =
      GcStatus.shouldDrop ∧
    (decrement (mkSt1 (mkHdr 1 Color.black false false false false false) [] true) 0).2 =
      GcStatus.shouldDrop ∧
    ∀ g : GcStatus, g = GcStatus.shouldDrop ∨ g = GcStatus.bufferedDrop ∨
      g = GcStatus.shouldKeep ∨ g = GcStatus.doNothing := by
  refine ⟨rfl, rfl, ?_⟩
  intro g
  cases g
  · exact Or.inl rfl
  · exact Or.inr (Or.inl rfl)
  · exact Or.inr (Or.inr (Or.inl rfl))
  · exact Or.inr (Or.inr (Or.inr rfl))

/-- Claim C4 (amended): when a non-leaked object's ref count reaches zero
inside `decrement`, `release` colors it Black and returns `BufferedDrop` when
`buffered` is set and `ShouldDrop` otherwise; the `in_cycle` flag is not
consulted and no `GarbageCycle` variant exists. -/
theorem C4_release_decision (s : St n) (o : Fin n)
    (hlk : (s.hd o).leaked = false) (hrc : s.rc o = 1) :
    (decrement s o).2 =
      (if (s.hd o).buffered then GcStatus.bufferedDrop else GcStatus.shouldDrop) ∧
    ((decrement s o).1.hd o).color = Color.black := by
  have hrc1 : (s.hd o).rc = 1 := hrc
  constructor
  · simp [decrement, St.rc, hlk, hrc1, release, St.setColor, St.upd, St.buffered,
      St.decRc]
  · simp [decrement, St.rc, hlk, hrc1, release, St.setColor, St.upd, St.buffered,
      St.decRc]

/-- Claim C4 witness: a buffered object reaching zero gets `BufferedDrop` and
is colored Black. -/
theorem C4_release_decision_witness :
    ((mkSt1 (mkHdr 1 Color.black true false false false false) [0] true).hd 0).leaked
        = false ∧
    (mkSt1 (mkHdr 1 Color.black true false false false false) [0] true).rc 0 = 1 ∧
    (decrement (mkSt1 (mkHdr 1 Color.black true false false false false) [0] true) 0).2 =
      (if ((mkSt1 (mkHdr 1 Color.black true false false false false) [0] true).hd 0).buffered
        then GcStatus.bufferedDrop else GcStatus.shouldDrop) ∧
    ((decrement (mkSt1 (mkHdr 1 Color.black true false false false false) [0] true) 0).1.hd
        0).color = Color.black :=
  ⟨rfl, rfl,
    (C4_release_decision (mkSt1 (mkHdr 1 Color.black true false false false false) [0] true)
      0 rfl rfl).1,
    (C4_release_decision (mkSt1 (mkHdr 1 Color.black true false false false false) [0] true)
      0 rfl rfl).2⟩

end RPGc

namespace RPGc

/-! Claim C5. -/

/-- Claim C5 counterexample: decrementing a leaked object is a no-op, but it
returns `ShouldKeep`, not `DoNothing` as the claim states. -/
theorem C5_leaked_decrement_counterexample :
    decrement (mkSt1 (mkHdr 3 Color.black false false false false true) [] true) 0 =
      (mkSt1 (mkHdr 3 Color.black false false false false true) [] true,
        GcStatus.shouldKeep) ∧
    GcStatus.shouldKeep ≠ GcStatus.doNothing := by
  exact ⟨rfl, by decide⟩

/-- Claim C5 (amended): for a leaked object, `decrement` (both the
`Collector` and the `CcSync` variant) is a no-op returning `ShouldKeep`; for
a non-leaked object whose ref count is already 0 it is a no-op returning
`DoNothing`. -/
theorem C5_decrement_noop_cases (tr : Fin n → Bool) (s : St n) (o : Fin n) :
    ((s.hd o).leaked = true →
      decrement s o = (s, GcStatus.shouldKeep) ∧
      ccDecrement tr s o = (s, GcStatus.shouldKeep)) ∧
    ((s.hd o).leaked = false → (s.hd o).rc = 0 →
      decrement s o = (s, GcStatus.doNothing) ∧
      ccDecrement tr s o = (s, GcStatus.doNothing)) := by
  constructor
  · intro hlk
    constructor
    · simp [decrement, hlk]
    · simp [ccDecrement, hlk]
  · intro hlk hrc
    constructor
    · simp [decrement, hlk, St.rc, hrc]
    · simp [ccDecrement, hlk, St.rc, hrc]

/-- Claim C5 witness: instances of both no-op cases. -/
theorem C5_decrement_noop_cases_witness :
    decrement (mkSt1 (mkHdr 3 Color.black false false false false true) [] true) 0 =
      (mkSt1 (mkHdr 3 Color.black false false false false true) [] true,
        GcStatus.shouldKeep) ∧
    decrement (mkSt1 (mkHdr 0 Color.black false false false false false) [] true) 0 =
      (mkSt1 (mkHdr 0 Color.black false false false false false) [] true,
        GcStatus.doNothing) :=
  ⟨((C5_decrement_noop_cases (fun _ => true)
      (mkSt1 (mkHdr 3 Color.black false false false false true) [] true) 0).1 rfl).1,
   ((C5_decrement_noop_cases (fun _ => true)
      (mkSt1 (mkHdr 0 Color.black false false false false false) [] true) 0).2 rfl rfl).1⟩

/-! Claim C6. -/

/-- Claim C6: in `CcSync::decrement`, a non-leaked object whose ref count
stays nonzero after the decrement is passed to `possible_root` and kept when
its type is traceable, and is kept without any buffering (root buffer
untouched) when it is not traceable. -/
theorem C6_decrement_traceable_gate (tr : Fin n → Bool) (s : St n) (o : Fin n)
    (hlk : (s.hd o).leaked = false) (hrc : 2 ≤ (s.hd o).rc) :
    (tr o = true →
      ccDecrement tr s o = (possibleRoot (s.decRc o) o, GcStatus.shouldKeep)) ∧
    (tr o = false →
      ccDecrement tr s o = (s.decRc o, GcStatus.shouldKeep) ∧
      (ccDecrement tr s o).1.roots = s.roots) := by
  have h0 : 0 < (s.hd o).rc := by omega
  have hne : ¬((s.hd o).rc - 1 = 0) := by omega
  constructor
  · intro htr
    simp [ccDecrement, hlk, St.rc, h0, St.decRc, St.upd, hne, htr]
  · intro htr
    refine ⟨?_, ?_⟩
    · simp [ccDecrement, hlk, St.rc, h0, St.decRc, St.upd, hne, htr]
    · simp [ccDecrement, hlk, St.rc, h0, St.decRc, St.upd, hne, htr]

/-- Claim C6 witness: a traceable and a non-traceable instance. -/
theorem C6_decrement_traceable_gate_witness :
    ccDecrement (fun _ => true)
        (mkSt1 (mkHdr 2 Color.black false false false false false) [] true) 0 =
      (possibleRoot
        ((mkSt1 (mkHdr 2 Color.black false false false false false) [] true).decRc 0) 0,
        GcStatus.shouldKeep) ∧
    (ccDecrement (fun _ => false)
        (mkSt1 (mkHdr 2 Color.black false false false false false) [] true) 0).1.roots =
      (mkSt1 (mkHdr 2 Color.black false false false false false) [] true).roots :=
  ⟨(C6_decrement_traceable_gate (fun _ => true)
      (mkSt1 (mkHdr 2 Color.black false false false false false) [] true) 0 rfl
      (by decide)).1 rfl,
   ((C6_decrement_traceable_gate (fun _ => false)
      (mkSt1 (mkHdr 2 Color.black false false false false false) [] true) 0 rfl
      (by decide)).2 rfl).2⟩

end RPGc

namespace RPGc

/-! Claim C7. -/

/-- Claim C7 counterexample: with the collector disabled, decrementing a
non-leaked object from ref count 2 still appends it to the root buffer —
`possible_root` is not gated on `is_enabled`. -/
theorem C7_disabled_still_buffers_counterexample :
    (mkSt1 (mkHdr 2 Color.black false false false false false) [] false).enabled
      = false ∧
    (decrement (mkSt1 (mkHdr 2 Color.black false false false false false) [] false)
      0).1.roots = [0] := by
  exact ⟨rfl, rfl⟩

/-- Claim C7 (amended): when the collector is disabled, `decrement` still
frees acyclic garbage immediately (an unbuffered non-leaked object reaching
ref count 0 yields `ShouldDrop`) and `need_gc` returns false, but an object
whose count stays positive is still appended to the root buffer: buffering is
not gated on `is_enabled`. -/
theorem C7_disabled_behavior (s : St n) (o : Fin n) (hen : s.enabled = false) :
    ((s.hd o).leaked = false → (s.hd o).rc = 1 → (s.hd o).buffered = false →
      (decrement s o).2 = GcStatus.shouldDrop) ∧
    (needGc s).1 = false ∧
    ((s.hd o).leaked = false → 2 ≤ (s.hd o).rc → (s.hd o).buffered = false →
      (s.hd o).color ≠ Color.purple → o ∈ (decrement s o).1.roots) := by
  refine ⟨?_, ?_, ?_⟩
  · intro hlk hrc hbf
    simp [decrement, St.rc, hlk, hrc, release, St.decRc, St.upd, St.setColor,
      St.buffered, hbf]
  · simp [needGc, hen]
  · intro hlk hrc hbf hcol
    have h0 : 0 < (s.hd o).rc := by omega
    have hne : ¬((s.hd o).rc - 1 = 0) := by omega
    simp [decrement, St.rc, hlk, h0, hne, possibleRoot, St.decRc, St.upd,
      St.setColor, St.setBuffered, St.color, St.buffered, hbf, hcol]

/-- Claim C7 witness: disabled collector, ref count 2, gets buffered while
`need_gc` is false. -/
theorem C7_disabled_behavior_witness :
    (mkSt1 (mkHdr 2 Color.black false false false false false) [] false).enabled
      = false ∧
    (needGc (mkSt1 (mkHdr 2 Color.black false false false false false) [] false)).1
      = false ∧
    0 ∈ (decrement (mkSt1 (mkHdr 2 Color.black false false false false false) [] false)
      0).1.roots :=
  ⟨rfl,
   (C7_disabled_behavior (mkSt1 (mkHdr 2 Color.black false false false false false) [] false)
      0 rfl).2.1,
   (C7_disabled_behavior (mkSt1 (mkHdr 2 Color.black false false false false false) [] false)
      0 rfl).2.2 rfl (by decide) rfl (by decide)⟩

/-! Claim C9. -/

/-- Claim C9 counterexample: a second drop, a dealloc of a never-dropped
object and a decrement at ref count 0 are all absorbed as recovered no-op
returns (`false` / `false` / `DoNothing`), not an abort or panic. -/
theorem C9_violations_recovered_counterexample :
    checkSetDropOnly (mkHdr 0 Color.black false false true false false) =
      (mkHdr 0 Color.black false false true false false, false) ∧
    checkSetDeallocOnly (mkHdr 0 Color.black false false false false false) =
      (mkHdr 0 Color.black false false false false false, false) ∧
    decrement (mkSt1 (mkHdr 0 Color.black false false false false false) [] true) 0 =
      (mkSt1 (mkHdr 0 Color.black false false false false false) [] true,
        GcStatus.doNothing) := by
  exact ⟨rfl, rfl, rfl⟩

/-- Claim C9 (amended): the invariant-violating operations are absorbed as
recovered no-op returns, never a panic: `check_set_drop_only` on an
already-dropped header returns `false` and leaves the header unchanged,
`check_set_dealloc_only` on a never-dropped header returns `false` and leaves
the header unchanged, and `decrement` at ref count 0 returns `DoNothing`
leaving the state unchanged. -/
theorem C9_violations_noop (h : Header) (s : St n) (o : Fin n) :
    (h.isDrop = true → checkSetDropOnly h = (h, false)) ∧
    (h.isDrop = false → checkSetDeallocOnly h = (h, false)) ∧
    ((s.hd o).leaked = false → (s.hd o).rc = 0 →
      decrement s o = (s, GcStatus.doNothing)) := by
  refine ⟨?_, ?_, ?_⟩
  · intro hdr
    cases hda : h.isDealloc
    · simp [checkSetDropOnly, hda, hdr]
    · simp [checkSetDropOnly, hda]
  · intro hdr
    simp [checkSetDeallocOnly, hdr]
  · intro hlk hrc
    simp [decrement, hlk, St.rc, hrc]

/-- Claim C9 witness: concrete instances of all three recovered no-ops. -/
theorem C9_violations_noop_witness :
    checkSetDropOnly (mkHdr 0 Color.black false false true true false) =
      (mkHdr 0 Color.black false false true true false, false) ∧
    checkSetDeallocOnly (mkHdr 5 Color.black false false false false false) =
      (mkHdr 5 Color.black false false false false false, false) ∧
    decrement (mkSt1 (mkHdr 0 Color.gray false false false false false) [] true) 0 =
      (mkSt1 (mkHdr 0 Color.gray false false false false false) [] true,
        GcStatus.doNothing) :=
  ⟨(C9_violations_noop (mkHdr 0 Color.black false false true true false)
      (mkSt1 (mkHdr 0 Color.gray false false false false false) [] true) 0).1 rfl,
   (C9_violations_noop (mkHdr 5 Color.black false false false false false)
      (mkSt1 (mkHdr 0 Color.gray false false false false false) [] true) 0).2.1 rfl,
   (C9_violations_noop (mkHdr 0 Color.black false false true true false)
      (mkSt1 (mkHdr 0 Color.gray false false false false false) [] true) 0).2.2 rfl rfl⟩

end RPGc

namespace RPGc

/-! Helper lemmas about the teardown passes of `free_cycles`. -/

/-- The destructor pass appends exactly one `dropOnly` event per member, in
list order. -/
theorem foldl_dropOnly_events (l : List (Fin n)) (s : St n) :
    (l.foldl (fun t i => dropOnlyStep t i) s).events =
      s.events ++ l.map Event.dropOnly := by
  induction l generalizing s with
  | nil => simp
  | cons a l ih =>
    rw [List.foldl_cons, ih]
    simp [dropOnlyStep, St.pushEvent, St.upd]

/-- The dealloc pass appends exactly one `deallocOnly` event per member, in
list order. -/
theorem foldl_deallocOnly_events (l : List (Fin n)) (s : St n) :
    (l.foldl (fun t i => deallocOnlyStep t i) s).events =
      s.events ++ l.map Event.deallocOnly := by
  induction l generalizing s with
  | nil => simp
  | cons a l ih =>
    rw [List.foldl_cons, ih]
    simp [deallocOnlyStep, St.pushEvent, St.upd]

/-! Claim C2. -/

/-- Claim C2: in every collection pass, `free_cycles` runs the drop-only pass
over the whole kept white list before the dealloc-only pass over the very
same fixed list: the event trace is the filter stage's trace, followed by one
`dropOnly` event per kept object in list order, followed by one `deallocOnly`
event per kept object in the same order — the two passes are sequential and
never interleaved per-object. -/
theorem C2_drop_pass_before_dealloc_pass (ch : Fin n → List (Fin n))
    (del : Fin n → Option (St n → St n)) (s : St n) (white : List (Fin n)) :
    (freeCycles ch del s white).1.events =
      (freeCyclesFilter del (freeCyclesInc ch s white) white).1.events ++
        (freeCyclesFilter del (freeCyclesInc ch s white) white).2.2.map Event.dropOnly ++
        (freeCyclesFilter del (freeCyclesInc ch s white) white).2.2.map Event.deallocOnly := by
  show (freeCycles ch del s white).1.events = _
  unfold freeCycles
  simp [foldl_dropOnly_events, foldl_deallocOnly_events]

end RPGc

namespace RPGc

/-! Helper lemmas: generic fold preservation and frames. -/

/-- A property preserved by each step of a left fold is preserved by the
whole fold. -/
theorem foldlPreserve {α β : Type _} (f : β → α → β) (P : β → Prop)
    (h : ∀ b a, P b → P (f b a)) :
    ∀ (l : List α) (b : β), P b → P (l.foldl f b) := by
  intro l
  induction l with
  | nil => intro b hb; simpa using hb
  | cons a l ih =>
    intro b hb
    rw [List.foldl_cons]
    exact ih _ (h b a hb)

/-- Reading a header through a pointwise update. -/
theorem upd_hd (s : St n) (i : Fin n) (f : Header → Header) (v : Fin n) :
    ((s.upd i f).hd v) = if v = i then f (s.hd v) else s.hd v := by
  simp [St.upd]

/-- One child update of `free_cycles` step 0 only changes ref counts. -/
theorem freeCyclesIncStep_frame (t : St n) (c : Fin n) :
    ((if (t.hd c).leaked then t
      else if 0 < t.rc c then t.incRc c else t) : St n).roots = t.roots ∧
    ((if (t.hd c).leaked then t
      else if 0 < t.rc c then t.incRc c else t) : St n).events = t.events ∧
    ∀ v, (((if (t.hd c).leaked then t
        else if 0 < t.rc c then t.incRc c else t) : St n).hd v).buffered =
          (t.hd v).buffered ∧
      (((if (t.hd c).leaked then t
        else if 0 < t.rc c then t.incRc c else t) : St n).hd v).leaked =
          (t.hd v).leaked ∧
      (((if (t.hd c).leaked then t
        else if 0 < t.rc c then t.incRc c else t) : St n).hd v).color =
          (t.hd v).color := by
  by_cases hlk : (t.hd c).leaked
  · simp [hlk]
  · by_cases hrc : 0 < t.rc c
    · refine ⟨?_, ?_, ?_⟩
      · simp [hlk, hrc, St.incRc, St.upd]
      · simp [hlk, hrc, St.incRc, St.upd]
      · intro v
        by_cases hvc : v = c
        · subst hvc
          simp [hlk, hrc, St.incRc, upd_hd]
        · simp [hlk, hrc, St.incRc, upd_hd, hvc]
    · simp [hlk, hrc]

/-- `free_cycles` step 0 only changes ref counts: buffer, events, flags and
colors are untouched. -/
theorem freeCyclesInc_frame (ch : Fin n → List (Fin n)) (s : St n)
    (w : List (Fin n)) :
    (freeCyclesInc ch s w).roots = s.roots ∧
    (freeCyclesInc ch s w).events = s.events ∧
    ∀ v, ((freeCyclesInc ch s w).hd v).buffered = (s.hd v).buffered ∧
      ((freeCyclesInc ch s w).hd v).leaked = (s.hd v).leaked ∧
      ((freeCyclesInc ch s w).hd v).color = (s.hd v).color := by
  unfold freeCyclesInc
  refine foldlPreserve _
    (fun t => t.roots = s.roots ∧ t.events = s.events ∧
      ∀ v, (t.hd v).buffered = (s.hd v).buffered ∧
        (t.hd v).leaked = (s.hd v).leaked ∧
        (t.hd v).color = (s.hd v).color) ?_ w s ⟨rfl, rfl, fun _ => ⟨rfl, rfl, rfl⟩⟩
  intro t a ht
  refine foldlPreserve _
    (fun t => t.roots = s.roots ∧ t.events = s.events ∧
      ∀ v, (t.hd v).buffered = (s.hd v).buffered ∧
        (t.hd v).leaked = (s.hd v).leaked ∧
        (t.hd v).color = (s.hd v).color) ?_ (ch a) t ht
  intro t c ht
  obtain ⟨h1, h2, h3⟩ := freeCyclesIncStep_frame t c
  refine ⟨h1.trans ht.1, h2.trans ht.2.1, fun v => ?_⟩
  obtain ⟨b1, b2, b3⟩ := h3 v
  obtain ⟨c1, c2, c3⟩ := ht.2.2 v
  exact ⟨b1.trans c1, b2.trans c2, b3.trans c3⟩

/-- A segment of the `__del__` filter loop whose members have no `__del__`
slot passes through unchanged, appending its members to the kept list. -/
theorem filter_noDel_seg (del : Fin n → Option (St n → St n))
    (w : List (Fin n)) (hw : ∀ j ∈ w, del j = none) :
    ∀ (t : St n) (res keep : List (Fin n)),
      w.foldl (freeCyclesFilterStep del) (t, res, keep) = (t, res, keep ++ w) := by
  induction w with
  | nil => intro t res keep; simp
  | cons a w ih =>
    intro t res keep
    have ha : del a = none := hw a (by simp)
    rw [List.foldl_cons]
    have hstep : freeCyclesFilterStep del (t, res, keep) a = (t, res, keep ++ [a]) := by
      simp [freeCyclesFilterStep, callDel, ha]
    rw [hstep, ih (fun j hj => hw j (by simp [hj]))]
    simp

/-- Under the single-finalizer discipline, the `__del__` filter of a pass in
which member `i` is resurrected produces: the post-`call_del` state with
`i` re-buffered, the resurrected list `[i]`, and the kept list with `i`
removed. -/
theorem filter_single_resurrect (del : Fin n → Option (St n → St n))
    (w : List (Fin n)) (i : Fin n) (hi : i ∈ w) (hnd : w.Nodup)
    (honly : ∀ j, j ≠ i → del j = none) (s0 : St n)
    (hres : (callDel del s0 i).2 = false)
    (hbuf : ((callDel del s0 i).1.hd i).buffered = false) :
    ∃ w1 w2, w = w1 ++ i :: w2 ∧ i ∉ w1 ∧ i ∉ w2 ∧
      freeCyclesFilter del s0 w =
        ((callDel del s0 i).1.setBuffered i true, [i], w1 ++ w2) := by
  obtain ⟨w1, w2, rfl⟩ := List.append_of_mem hi
  obtain ⟨nd1, nd2, disj⟩ := List.nodup_append.mp hnd
  have hiw1 : i ∉ w1 := fun h => disj h (List.mem_cons_self i w2)
  have hiw2 : i ∉ w2 := (List.nodup_cons.mp nd2).1
  refine ⟨w1, w2, rfl, hiw1, hiw2, ?_⟩
  unfold freeCyclesFilter
  rw [List.foldl_append]
  rw [filter_noDel_seg del w1
    (fun j hj => honly j (fun hji => hiw1 (hji ▸ hj))) s0 [] []]
  rw [List.foldl_cons]
  have hstep : freeCyclesFilterStep del (s0, [], [] ++ w1) i =
      ((callDel del s0 i).1.setBuffered i true, [i], w1) := by
    simp [freeCyclesFilterStep, hres, St.buffered, hbuf]
  rw [hstep]
  rw [filter_noDel_seg del w2
    (fun j hj => honly j (fun hji => hiw2 (hji ▸ hj)))]

/-- The destructor pass does not touch the buffer, buffered flags or ref
counts. -/
theorem dropPass_frame (l : List (Fin n)) (s : St n) (i : Fin n) :
    (l.foldl (fun t j => dropOnlyStep t j) s).roots = s.roots ∧
    ((l.foldl (fun t j => dropOnlyStep t j) s).hd i).buffered = (s.hd i).buffered ∧
    ((l.foldl (fun t j => dropOnlyStep t j) s).hd i).rc = (s.hd i).rc := by
  refine foldlPreserve _
    (fun t => t.roots = s.roots ∧ (t.hd i).buffered = (s.hd i).buffered ∧
      (t.hd i).rc = (s.hd i).rc) ?_ l s ⟨rfl, rfl, rfl⟩
  intro t a ht
  refine ⟨?_, ?_, ?_⟩
  · simpa [dropOnlyStep, St.pushEvent, St.upd] using ht.1
  · by_cases hia : i = a
    · subst hia; simp [dropOnlyStep, St.pushEvent, upd_hd, ht.2.1]
    · simp [dropOnlyStep, St.pushEvent, upd_hd, hia, ht.2.1]
  · by_cases hia : i = a
    · subst hia; simp [dropOnlyStep, St.pushEvent, upd_hd, ht.2.2]
    · simp [dropOnlyStep, St.pushEvent, upd_hd, hia, ht.2.2]

/-- The dealloc pass does not touch the buffer, buffered flags or ref
counts. -/
theorem deallocPass_frame (l : List (Fin n)) (s : St n) (i : Fin n) :
    (l.foldl (fun t j => deallocOnlyStep t j) s).roots = s.roots ∧
    ((l.foldl (fun t j => deallocOnlyStep t j) s).hd i).buffered = (s.hd i).buffered ∧
    ((l.foldl (fun t j => deallocOnlyStep t j) s).hd i).rc = (s.hd i).rc := by
  refine foldlPreserve _
    (fun t => t.roots = s.roots ∧ (t.hd i).buffered = (s.hd i).buffered ∧
      (t.hd i).rc = (s.hd i).rc) ?_ l s ⟨rfl, rfl, rfl⟩
  intro t a ht
  refine ⟨?_, ?_, ?_⟩
  · simpa [deallocOnlyStep, St.pushEvent, St.upd] using ht.1
  · by_cases hia : i = a
    · subst hia; simp [deallocOnlyStep, St.pushEvent, upd_hd, ht.2.1]
    · simp [deallocOnlyStep, St.pushEvent, upd_hd, hia, ht.2.1]
  · by_cases hia : i = a
    · subst hia; simp [deallocOnlyStep, St.pushEvent, upd_hd, ht.2.2]
    · simp [deallocOnlyStep, St.pushEvent, upd_hd, hia, ht.2.2]

end RPGc

namespace RPGc

/-- A resurrection verdict (`Err`) from `call_del` means the ref count after
the protocol is nonzero. -/
theorem callDel_rc_of_false (del : Fin n → Option (St n → St n)) (s0 : St n)
    (i : Fin n) (hres : (callDel del s0 i).2 = false) :
    (callDel del s0 i).1.rc i ≠ 0 := by
  cases hdel : del i with
  | none => simp [callDel, hdel] at hres
  | some f =>
    simp [callDel, hdel] at hres ⊢
    exact hres

/-! Claim C3. -/

/-- Claim C3: a white-list member whose finalizer leaves its ref count
nonzero is excluded from the kept white list, so the pass's drop-only and
dealloc-only loops add no teardown event for it; it is re-buffered as a fresh
possible root (buffered flag set, entry appended to the root buffer) and
survives the pass with ref count at least 1.  (Single-finalizer discipline:
the other members carry no `__del__` slot.) -/
theorem C3_resurrection_aborts_teardown (ch : Fin n → List (Fin n))
    (del : Fin n → Option (St n → St n)) (s : St n) (w : List (Fin n)) (i : Fin n)
    (hi : i ∈ w) (hnd : w.Nodup)
    (honly : ∀ j, j ≠ i → del j = none)
    (hres : (callDel del (freeCyclesInc ch s w) i).2 = false)
    (hbuf : ((callDel del (freeCyclesInc ch s w) i).1.hd i).buffered = false) :
    i ∉ (freeCyclesFilter del (freeCyclesInc ch s w) w).2.2 ∧
    (freeCycles ch del s w).1.events.count (Event.dropOnly i) =
      (freeCyclesFilter del (freeCyclesInc ch s w) w).1.events.count
        (Event.dropOnly i) ∧
    (freeCycles ch del s w).1.events.count (Event.deallocOnly i) =
      (freeCyclesFilter del (freeCyclesInc ch s w) w).1.events.count
        (Event.deallocOnly i) ∧
    i ∈ (freeCycles ch del s w).1.roots ∧
    ((freeCycles ch del s w).1.hd i).buffered = true ∧
    1 ≤ ((freeCycles ch del s w).1.hd i).rc := by
  obtain ⟨w1, w2, hw, hiw1, hiw2, hfil⟩ :=
    filter_single_resurrect del w i hi hnd honly (freeCyclesInc ch s w) hres hbuf
  have hires : i ∉ w1 ++ w2 := by
    intro hmem
    rcases List.mem_append.mp hmem with h | h
    · exact hiw1 h
    · exact hiw2 h
  have hfc : freeCycles ch del s w =
      ((w1 ++ w2).foldl (fun t j => deallocOnlyStep t j)
        ((w1 ++ w2).foldl (fun t j => dropOnlyStep t j)
          ({ ((callDel del (freeCyclesInc ch s w) i).1.setBuffered i true) with
            roots :=
              ((callDel del (freeCyclesInc ch s w) i).1.setBuffered i true).roots
                ++ [i] })),
        (w1 ++ w2).length) := by
    simp only [freeCycles, hfil]
  have hev : (freeCycles ch del s w).1.events =
      ((callDel del (freeCyclesInc ch s w) i).1.setBuffered i true).events ++
        (w1 ++ w2).map Event.dropOnly ++ (w1 ++ w2).map Event.deallocOnly := by
    rw [hfc]
    simp [foldl_deallocOnly_events, foldl_dropOnly_events]
  have hdropzero : ((w1 ++ w2).map Event.dropOnly).count (Event.dropOnly i) = 0 := by
    refine List.count_eq_zero.mpr ?_
    intro hmem
    obtain ⟨a, ha, heq⟩ := List.mem_map.mp hmem
    exact hires (Event.dropOnly.inj heq ▸ ha)
  have hdeadzero :
      ((w1 ++ w2).map Event.deallocOnly).count (Event.deallocOnly i) = 0 := by
    refine List.count_eq_zero.mpr ?_
    intro hmem
    obtain ⟨a, ha, heq⟩ := List.mem_map.mp hmem
    exact hires (Event.deallocOnly.inj heq ▸ ha)
  have hmixzero1 : ((w1 ++ w2).map Event.deallocOnly).count (Event.dropOnly i) = 0 := by
    refine List.count_eq_zero.mpr ?_
    simp
  have hmixzero2 : ((w1 ++ w2).map Event.dropOnly).count (Event.deallocOnly i) = 0 := by
    refine List.count_eq_zero.mpr ?_
    simp
  have hq1ev : (freeCyclesFilter del (freeCyclesInc ch s w) w).1.events =
      ((callDel del (freeCyclesInc ch s w) i).1.setBuffered i true).events := by
    rw [hfil]
  refine ⟨?_, ?_, ?_, ?_, ?_, ?_⟩
  · rw [hfil]
    exact hires
  · rw [hev, hq1ev, List.count_append, List.count_append, hdropzero, hmixzero1]
    omega
  · rw [hev, hq1ev, List.count_append, List.count_append, hmixzero2, hdeadzero]
    omega
  · have h4 : (freeCycles ch del s w).1.roots =
        ((callDel del (freeCyclesInc ch s w) i).1.setBuffered i true).roots ++ [i] := by
      rw [hfc]
      rw [(deallocPass_frame (w1 ++ w2) _ i).1, (dropPass_frame (w1 ++ w2) _ i).1]
    rw [h4]
    simp
  · have h5 : ((freeCycles ch del s w).1.hd i).buffered =
        (((callDel del (freeCyclesInc ch s w) i).1.setBuffered i true).hd i).buffered := by
      rw [hfc]
      rw [(deallocPass_frame (w1 ++ w2) _ i).2.1, (dropPass_frame (w1 ++ w2) _ i).2.1]
    rw [h5]
    simp [St.setBuffered, upd_hd]
  · have h6 : ((freeCycles ch del s w).1.hd i).rc =
        (((callDel del (freeCyclesInc ch s w) i).1.setBuffered i true).hd i).rc := by
      rw [hfc]
      rw [(deallocPass_frame (w1 ++ w2) _ i).2.2, (dropPass_frame (w1 ++ w2) _ i).2.2]
    have h7 : (((callDel del (freeCyclesInc ch s w) i).1.setBuffered i true).hd i).rc =
        ((callDel del (freeCyclesInc ch s w) i).1.hd i).rc := by
      simp [St.setBuffered, upd_hd]
    have h8 := callDel_rc_of_false del (freeCyclesInc ch s w) i hres
    rw [h6, h7]
    have h9 : ((callDel del (freeCyclesInc ch s w) i).1.hd i).rc ≠ 0 := h8
    omega

/-- Claim C3 witness: a candidate at ref count 0 whose finalizer stores a new
reference survives the pass re-buffered with ref count 1 and receives no
teardown event. -/
theorem C3_resurrection_aborts_teardown_witness :
    ((0 : Fin 1) ∈ [(0 : Fin 1)]) ∧
    (callDel delRes1 (freeCyclesInc chLoop stRes [0]) 0).2 = false ∧
    (0 : Fin 1) ∉ (freeCyclesFilter delRes1 (freeCyclesInc chLoop stRes [0]) [0]).2.2 ∧
    0 ∈ (freeCycles chLoop delRes1 stRes [0]).1.roots ∧
    ((freeCycles chLoop delRes1 stRes [0]).1.hd 0).buffered = true ∧
    1 ≤ ((freeCycles chLoop delRes1 stRes [0]).1.hd 0).rc := by
  have honly : ∀ j : Fin 1, j ≠ 0 → delRes1 j = none :=
    fun j hj => absurd (Subsingleton.elim j 0) hj
  have hmain := C3_resurrection_aborts_teardown chLoop delRes1 stRes [0] 0
    (by decide) (by decide) honly (by decide) (by decide)
  exact ⟨by decide, by decide, hmain.1, hmain.2.2.2.1, hmain.2.2.2.2.1,
    hmain.2.2.2.2.2⟩

end RPGc

namespace RPGc

/-- `CWRel` is reflexive. -/
theorem CWRel_refl (s : St n) (acc : List (Fin n)) : CWRel s acc s acc :=
  ⟨fun _ hx => hx, fun _ hx => Or.inl hx, fun _ => Or.inl rfl, fun _ hx => Or.inl hx,
   fun _ h => h, ⟨rfl, rfl, fun _ => ⟨rfl, rfl, rfl, rfl, rfl⟩⟩, fun h => h⟩

/-- `CWRel` is transitive. -/
theorem CWRel_trans {s s' s'' : St n} {a a' a'' : List (Fin n)}
    (h1 : CWRel s a s' a') (h2 : CWRel s' a' s'' a'') : CWRel s a s'' a'' := by
  obtain ⟨e1, w1, c1, i1, m1, f1, n1⟩ := h1
  obtain ⟨e2, w2, c2, i2, m2, f2, n2⟩ := h2
  refine ⟨fun x hx => e2 x (e1 x hx), ?_, ?_, ?_, fun v h => m2 v (m1 v h), ?_,
    fun h => n2 (n1 h)⟩
  · intro x hx
    rcases w2 x hx with h | h
    · exact w1 x h
    · rcases c1 x with hc | hc
      · exact Or.inr (by rw [← hc]; exact h)
      · rw [h] at hc
        simp at hc
  · intro v
    rcases c2 v with h | hc
    · rcases c1 v with h' | ⟨hw', hb'⟩
      · exact Or.inl (h.trans h')
      · exact Or.inr ⟨hw', h.trans hb'⟩
    · rcases c1 v with h' | ⟨hw', hb'⟩
      · exact Or.inr ⟨by rw [← h']; exact hc.1, hc.2⟩
      · rw [hc.1] at hb'
        simp at hb'
  · intro x hx
    rcases i2 x hx with h | h
    · rcases i1 x h with h' | h'
      · exact Or.inl h'
      · exact Or.inr (m2 x h')
    · exact Or.inr h
  · obtain ⟨r1, v1, p1⟩ := f1
    obtain ⟨r2, v2, p2⟩ := f2
    refine ⟨r2.trans r1, v2.trans v1, fun v => ?_⟩
    obtain ⟨a1, b1, c1x, d1, e1x⟩ := p1 v
    obtain ⟨a2, b2, c2x, d2, e2x⟩ := p2 v
    exact ⟨a2.trans a1, b2.trans b1, c2x.trans c1x, d2.trans d1, e2x.trans e1x⟩

/-- Every `collect_white` call satisfies its effect summary. -/
theorem collectWhite_rel (ch : Fin n → List (Fin n)) :
    ∀ (fuel : Nat) (s : St n) (o : Fin n) (acc : List (Fin n)),
      CWRel s acc (collectWhite ch fuel s o acc).1 (collectWhite ch fuel s o acc).2 := by
  intro fuel
  induction fuel with
  | zero =>
    intro s o acc
    simpa [collectWhite] using CWRel_refl s acc
  | succ fuel ih =>
    intro s o acc
    by_cases hcond : s.color o = Color.white ∧ s.buffered o = false
    · have hfold : ∀ (l : List (Fin n)) (t : St n) (bacc : List (Fin n)),
          CWRel t bacc
            (l.foldl (fun (p : St n × List (Fin n)) c =>
              if ((p.1).hd c).leaked then p
              else collectWhite ch fuel p.1 c p.2) (t, bacc)).1
            (l.foldl (fun (p : St n × List (Fin n)) c =>
              if ((p.1).hd c).leaked then p
              else collectWhite ch fuel p.1 c p.2) (t, bacc)).2 := by
        intro l
        induction l with
        | nil =>
          intro t bacc
          simpa using CWRel_refl t bacc
        | cons c l ihl =>
          intro t bacc
          rw [List.foldl_cons]
          by_cases hlk : (t.hd c).leaked
          · have hstep : (if ((t, bacc).1.hd c).leaked then (t, bacc)
                else collectWhite ch fuel (t, bacc).1 c (t, bacc).2) = (t, bacc) := by
              simp [hlk]
            rw [hstep]
            exact ihl t bacc
          · have hstep : (if ((t, bacc).1.hd c).leaked then (t, bacc)
                else collectWhite ch fuel (t, bacc).1 c (t, bacc).2) =
                collectWhite ch fuel t c bacc := by
              simp [hlk]
            rw [hstep]
            exact CWRel_trans (ih t c bacc)
              (ihl (collectWhite ch fuel t c bacc).1 (collectWhite ch fuel t c bacc).2)
      have hsplit : collectWhite ch (fuel + 1) s o acc =
          (((ch o).foldl (fun (p : St n × List (Fin n)) c =>
              if ((p.1).hd c).leaked then p
              else collectWhite ch fuel p.1 c p.2)
              (((s.setColor o Color.black).setInCycle o true), acc)).1,
           ((ch o).foldl (fun (p : St n × List (Fin n)) c =>
              if ((p.1).hd c).leaked then p
              else collectWhite ch fuel p.1 c p.2)
              (((s.setColor o Color.black).setInCycle o true), acc)).2 ++ [o]) := by
        rw [collectWhite]
        rw [if_pos hcond]
      have hA : CWRel s acc ((s.setColor o Color.black).setInCycle o true) acc := by
        refine ⟨fun x hx => hx, fun x hx => Or.inl hx, ?_, fun x hx => Or.inl hx, ?_,
          ⟨rfl, rfl, ?_⟩, ?_⟩
        · intro v
          by_cases hvo : v = o
          · subst hvo
            exact Or.inr ⟨hcond.1, by
              simp [St.setColor, St.setInCycle, upd_hd, St.color]⟩
          · exact Or.inl (by
              simp [St.setColor, St.setInCycle, upd_hd, St.color, hvo])
        · intro v hv
          by_cases hvo : v = o
          · subst hvo
            simp [St.setColor, St.setInCycle, upd_hd]
          · simpa [St.setColor, St.setInCycle, upd_hd, hvo] using hv
        · intro v
          by_cases hvo : v = o
          · subst hvo
            simp [St.setColor, St.setInCycle, upd_hd]
          · simp [St.setColor, St.setInCycle, upd_hd, hvo]
        · rintro ⟨hnd, hbl⟩
          refine ⟨hnd, fun v hv => ?_⟩
          have hvo : v ≠ o := by
            intro h
            subst h
            rw [hbl v hv] at hcond
            simp at hcond
          simpa [St.color, St.setColor, St.setInCycle, upd_hd, hvo] using hbl v hv
      set s1 := (s.setColor o Color.black).setInCycle o true with hs1
      have R2 := hfold (ch o) s1 acc
      set q := (ch o).foldl (fun (p : St n × List (Fin n)) c =>
        if ((p.1).hd c).leaked then p
        else collectWhite ch fuel p.1 c p.2) (s1, acc) with hq
      have Rc := CWRel_trans hA R2
      have hs1o : s1.color o = Color.black := by
        simp [hs1, St.setColor, St.setInCycle, upd_hd, St.color]
      have hs1i : (s1.hd o).inCycle = true := by
        simp [hs1, St.setColor, St.setInCycle, upd_hd]
      have hqo : (q.1).color o = Color.black := by
        rcases R2.2.2.1 o with h | h
        · exact h.trans hs1o
        · exact h.2
      have hqi : ((q.1).hd o).inCycle = true := R2.2.2.2.2.1 o hs1i
      rw [hsplit]
      refine ⟨?_, ?_, Rc.2.2.1, ?_, Rc.2.2.2.2.1, Rc.2.2.2.2.2.1, ?_⟩
      · intro x hx
        exact List.mem_append_left _ (Rc.1 x hx)
      · intro x hx
        rcases List.mem_append.mp hx with h | h
        · exact Rc.2.1 x h
        · rw [List.mem_singleton.mp h]
          exact Or.inr hcond.1
      · intro x hx
        rcases List.mem_append.mp hx with h | h
        · rcases Rc.2.2.2.1 x h with h' | h'
          · exact Or.inl h'
          · exact Or.inr h'
        · rw [List.mem_singleton.mp h]
          exact Or.inr hqi
      · rintro ⟨hnd, hbl⟩
        have hN1 := hA.2.2.2.2.2.2 ⟨hnd, hbl⟩
        have hN2 := R2.2.2.2.2.2.2 hN1
        have honotin : o ∉ q.2 := by
          intro hmem
          rcases R2.2.1 o hmem with h | h
          · rw [hbl o h] at hcond
            simp at hcond
          · rw [hs1o] at h
            simp at h
        refine ⟨?_, ?_⟩
        · exact List.Nodup.append hN2.1 (List.nodup_singleton o)
            (by
              intro a ha hb
              rw [List.mem_singleton.mp hb] at ha
              exact honotin ha)
        · intro v hv
          rcases List.mem_append.mp hv with h | h
          · exact hN2.2 v h
          · rw [List.mem_singleton.mp h]
            exact hqo
    · rw [collectWhite, if_neg hcond]
      exact CWRel_refl s acc

end RPGc

namespace RPGc

/-- `set_buffered` changes nothing but the buffered flag. -/
theorem setBuffered_frame (s : St n) (r : Fin n) (b : Bool) (v : Fin n) :
    (s.setBuffered r b).color v = s.color v ∧
    ((s.setBuffered r b).hd v).inCycle = (s.hd v).inCycle ∧
    ((s.setBuffered r b).hd v).rc = (s.hd v).rc ∧
    ((s.setBuffered r b).hd v).leaked = (s.hd v).leaked ∧
    (s.setBuffered r b).roots = s.roots ∧
    (s.setBuffered r b).events = s.events := by
  by_cases hv : v = r
  · subst hv
    simp [St.setBuffered, St.color, upd_hd, St.upd]
  · simp [St.setBuffered, St.color, upd_hd, hv, St.upd]

/-! Claim C10. -/

/-- Claim C10: in a single pass the white list built by `collect_roots`
contains no duplicate pointers (each object is collected at most once),
every collected object was White at the start of the collection loop, and
every collected object leaves the loop recolored Black with its `in_cycle`
flag set — so the subsequent drop-only and dealloc-only passes each act at
most once per object. -/
theorem C10_collect_white_once (ch : Fin n → List (Fin n)) (fuel : Nat) (s : St n) :
    (collectRootsWhite ch fuel s).2.Nodup ∧
    (∀ i ∈ (collectRootsWhite ch fuel s).2, s.color i = Color.white) ∧
    (∀ i ∈ (collectRootsWhite ch fuel s).2,
      ((collectRootsWhite ch fuel s).1).color i = Color.black ∧
      (((collectRootsWhite ch fuel s).1).hd i).inCycle = true) := by
  have main : ∀ (l : List (Fin n)) (p : St n × List (Fin n)),
      (p.2.Nodup ∧ (∀ v ∈ p.2, (p.1).color v = Color.black) ∧
        (∀ x ∈ p.2, s.color x = Color.white) ∧
        (∀ v, (p.1).color v = s.color v ∨
          (s.color v = Color.white ∧ (p.1).color v = Color.black)) ∧
        (∀ x ∈ p.2, ((p.1).hd x).inCycle = true)) →
      ((l.foldl (collectRootsStep ch fuel) p).2.Nodup ∧
        (∀ v ∈ (l.foldl (collectRootsStep ch fuel) p).2,
          ((l.foldl (collectRootsStep ch fuel) p).1).color v = Color.black) ∧
        (∀ x ∈ (l.foldl (collectRootsStep ch fuel) p).2, s.color x = Color.white) ∧
        (∀ v, ((l.foldl (collectRootsStep ch fuel) p).1).color v = s.color v ∨
          (s.color v = Color.white ∧
            ((l.foldl (collectRootsStep ch fuel) p).1).color v = Color.black)) ∧
        (∀ x ∈ (l.foldl (collectRootsStep ch fuel) p).2,
          (((l.foldl (collectRootsStep ch fuel) p).1).hd x).inCycle = true)) := by
    intro l
    refine foldlPreserve (collectRootsStep ch fuel)
      (fun p => p.2.Nodup ∧ (∀ v ∈ p.2, (p.1).color v = Color.black) ∧
        (∀ x ∈ p.2, s.color x = Color.white) ∧
        (∀ v, (p.1).color v = s.color v ∨
          (s.color v = Color.white ∧ (p.1).color v = Color.black)) ∧
        (∀ x ∈ p.2, ((p.1).hd x).inCycle = true)) ?_ l
    intro p r hp
    obtain ⟨hnd, hbl, hwh, hc4, hic⟩ := hp
    have R := collectWhite_rel ch fuel ((p.1).setBuffered r false) r p.2
    have hstep : collectRootsStep ch fuel p r =
        collectWhite ch fuel ((p.1).setBuffered r false) r p.2 := rfl
    rw [hstep]
    set t1 := (p.1).setBuffered r false with ht1
    set q := collectWhite ch fuel t1 r p.2 with hqdef
    have hbl1 : ∀ v ∈ p.2, t1.color v = Color.black := by
      intro v hv
      rw [(setBuffered_frame (p.1) r false v).1]
      exact hbl v hv
    have hN := R.2.2.2.2.2.2 ⟨hnd, hbl1⟩
    have hc41 : ∀ v, t1.color v = s.color v ∨
        (s.color v = Color.white ∧ t1.color v = Color.black) := by
      intro v
      rw [(setBuffered_frame (p.1) r false v).1]
      exact hc4 v
    refine ⟨hN.1, hN.2, ?_, ?_, ?_⟩
    · intro x hx
      rcases R.2.1 x hx with h | h
      · exact hwh x h
      · rcases hc41 x with h' | h'
        · rw [← h']; exact h
        · rw [h] at h'
          simp at h'
    · intro v
      rcases R.2.2.1 v with h | ⟨hw, hb⟩
      · rcases hc41 v with h' | h'
        · exact Or.inl (h.trans h')
        · exact Or.inr ⟨h'.1, h.trans h'.2⟩
      · rcases hc41 v with h' | h'
        · exact Or.inr ⟨by rw [← h']; exact hw, hb⟩
        · rw [hw] at h'
          simp at h'
    · intro x hx
      rcases R.2.2.2.1 x hx with h | h
      · have : (t1.hd x).inCycle = true := by
          rw [(setBuffered_frame (p.1) r false x).2.1]
          exact hic x h
        exact R.2.2.2.2.1 x this
      · exact h
  have hm := main s.roots ({ s with roots := [] }, [])
    ⟨List.nodup_nil, by simp, by simp, fun v => Or.inl rfl, by simp⟩
  have heq : collectRootsWhite ch fuel s =
      s.roots.foldl (collectRootsStep ch fuel) ({ s with roots := [] }, []) := rfl
  rw [heq]
  exact ⟨hm.1, hm.2.2.1, fun i hi => ⟨hm.2.1 i hi, hm.2.2.2.2 i hi⟩⟩

end RPGc

namespace RPGc

theorem HFrame_refl (s : St n) : HFrame s s :=
  ⟨rfl, rfl, rfl, fun _ => ⟨rfl, rfl, rfl, rfl, rfl⟩⟩

theorem HFrame_trans {s s' s'' : St n} (h1 : HFrame s s') (h2 : HFrame s' s'') :
    HFrame s s'' := by
  obtain ⟨r1, e1, n1, p1⟩ := h1
  obtain ⟨r2, e2, n2, p2⟩ := h2
  refine ⟨r2.trans r1, e2.trans e1, n2.trans n1, fun v => ?_⟩
  obtain ⟨a1, b1, c1, d1, f1⟩ := p1 v
  obtain ⟨a2, b2, c2, d2, f2⟩ := p2 v
  exact ⟨a2.trans a1, b2.trans b1, c2.trans c1, d2.trans d1, f2.trans f1⟩

theorem decRc_hframe (s : St n) (i : Fin n) : HFrame s (s.decRc i) := by
  refine ⟨rfl, rfl, rfl, fun v => ?_⟩
  by_cases hv : v = i
  · subst hv
    simp [St.decRc, upd_hd]
  · simp [St.decRc, upd_hd, hv]

theorem incRc_hframe (s : St n) (i : Fin n) : HFrame s (s.incRc i) := by
  refine ⟨rfl, rfl, rfl, fun v => ?_⟩
  by_cases hv : v = i
  · subst hv
    simp [St.incRc, upd_hd]
  · simp [St.incRc, upd_hd, hv]

theorem setColor_hframe (s : St n) (i : Fin n) (c : Color) :
    HFrame s (s.setColor i c) := by
  refine ⟨rfl, rfl, rfl, fun v => ?_⟩
  by_cases hv : v = i
  · subst hv
    simp [St.setColor, upd_hd]
  · simp [St.setColor, upd_hd, hv]

/-- `mark_gray` only changes colors and ref counts. -/
theorem markGray_hframe (ch : Fin n → List (Fin n)) :
    ∀ (fuel : Nat) (s : St n) (o : Fin n), HFrame s (markGray ch fuel s o) := by
  intro fuel
  induction fuel with
  | zero => intro s o; exact HFrame_refl s
  | succ fuel ih =>
    intro s o
    by_cases hc : s.color o = Color.gray
    · rw [markGray, if_pos hc]
      exact HFrame_refl s
    · rw [markGray, if_neg hc]
      refine foldlPreserve _ (fun t => HFrame s t) ?_ (ch o) _
        (setColor_hframe s o Color.gray)
      intro t c ht
      by_cases hlk : (t.hd c).leaked
      · simpa [hlk] using ht
      · have h1 : HFrame t (t.decRc c) := decRc_hframe t c
        have h2 : HFrame (t.decRc c) (markGray ch fuel (t.decRc c) c) := ih _ c
        simpa [hlk] using HFrame_trans ht (HFrame_trans h1 h2)

/-- `scan_black` only changes colors and ref counts. -/
theorem scanBlack_hframe (ch : Fin n → List (Fin n)) :
    ∀ (fuel : Nat) (s : St n) (o : Fin n), HFrame s (scanBlack ch fuel s o) := by
  intro fuel
  induction fuel with
  | zero => intro s o; exact HFrame_refl s
  | succ fuel ih =>
    intro s o
    rw [scanBlack]
    refine foldlPreserve _ (fun t => HFrame s t) ?_ (ch o) _
      (setColor_hframe s o Color.black)
    intro t c ht
    by_cases hlk : (t.hd c).leaked
    · simpa [hlk] using ht
    · have h1 : HFrame t (t.incRc c) := incRc_hframe t c
      by_cases hcb : (t.incRc c).color c ≠ Color.black
      · have h2 : HFrame (t.incRc c) (scanBlack ch fuel (t.incRc c) c) := ih _ c
        simpa [hlk, hcb] using HFrame_trans ht (HFrame_trans h1 h2)
      · simpa [hlk, hcb] using HFrame_trans ht h1

/-- `scan` only changes colors and ref counts. -/
theorem scan_hframe (ch : Fin n → List (Fin n)) :
    ∀ (fuel : Nat) (s : St n) (o : Fin n), HFrame s (scan ch fuel s o) := by
  intro fuel
  induction fuel with
  | zero => intro s o; exact HFrame_refl s
  | succ fuel ih =>
    intro s o
    by_cases hc : s.color o = Color.gray
    · by_cases hrc : 0 < s.rc o
      · rw [scan, if_pos hc, if_pos hrc]
        exact scanBlack_hframe ch fuel s o
      · rw [scan, if_pos hc, if_neg hrc]
        refine foldlPreserve _ (fun t => HFrame s t) ?_ (ch o) _
          (setColor_hframe s o Color.white)
        intro t c ht
        by_cases hlk : (t.hd c).leaked
        · simpa [hlk] using ht
        · simpa [hlk] using HFrame_trans ht (ih t c)
    · rw [scan, if_neg hc]
      exact HFrame_refl s

end RPGc

namespace RPGc

/-- The buffered flag after `set_buffered`. -/
theorem setBuffered_buffered (s : St n) (r : Fin n) (b : Bool) (v : Fin n) :
    ((s.setBuffered r b).hd v).buffered = if v = r then b else (s.hd v).buffered := by
  by_cases hv : v = r
  · subst hv
    simp [St.setBuffered, upd_hd]
  · simp [St.setBuffered, upd_hd, hv]

/-- `dealloc_only` (as an in-pass step) does not touch the buffer. -/
theorem deallocOnlyStep_roots (s : St n) (i : Fin n) :
    (deallocOnlyStep s i).roots = s.roots := rfl

/-- `dealloc_only` (as an in-pass step) does not touch buffered flags. -/
theorem deallocOnlyStep_buffered (s : St n) (i : Fin n) (v : Fin n) :
    ((deallocOnlyStep s i).hd v).buffered = (s.hd v).buffered := by
  by_cases hv : v = i
  · subst hv
    simp [deallocOnlyStep, St.pushEvent, upd_hd]
  · simp [deallocOnlyStep, St.pushEvent, upd_hd, hv]

/-- `BufInvX` only depends on the buffer and the buffered flags. -/
theorem BufInvX_of_frame {s s' : St n} (res : List (Fin n))
    (hroots : s'.roots = s.roots)
    (hflags : ∀ v, (s'.hd v).buffered = (s.hd v).buffered)
    (h : BufInvX s res) : BufInvX s' res := by
  obtain ⟨hnd, hiff⟩ := h
  refine ⟨by rw [hroots]; exact hnd, fun o => ?_⟩
  rw [hflags o, hroots]
  exact hiff o

/-- Case analysis of `possible_root`: either the buffer and all buffered
flags are untouched, or the object was unbuffered and is appended with its
flag set. -/
theorem possibleRoot_spec (s : St n) (o : Fin n) :
    ((possibleRoot s o).roots = s.roots ∧
      ∀ v, ((possibleRoot s o).hd v).buffered = (s.hd v).buffered) ∨
    ((s.hd o).buffered = false ∧
      (possibleRoot s o).roots = s.roots ++ [o] ∧
      ((possibleRoot s o).hd o).buffered = true ∧
      ∀ v, v ≠ o → ((possibleRoot s o).hd v).buffered = (s.hd v).buffered) := by
  by_cases hc : s.color o ≠ Color.purple
  · by_cases hb : (s.setColor o Color.purple).buffered o = false
    · right
      have hb0 : (s.hd o).buffered = false := by
        have : ((s.setColor o Color.purple).hd o).buffered = (s.hd o).buffered :=
          ((setColor_hframe s o Color.purple).2.2.2 o).1
        rw [St.buffered, this] at hb
        exact hb
      refine ⟨hb0, ?_, ?_, ?_⟩
      · simp only [possibleRoot, if_pos hc, if_pos hb]
        show ((s.setColor o Color.purple).setBuffered o true).roots ++ [o] =
          s.roots ++ [o]
        rw [(setBuffered_frame (s.setColor o Color.purple) o true o).2.2.2.2.1,
          (setColor_hframe s o Color.purple).1]
      · simp only [possibleRoot, if_pos hc, if_pos hb]
        show ((((s.setColor o Color.purple).setBuffered o true)).hd o).buffered = true
        rw [setBuffered_buffered]
        simp
      · intro v hv
        simp only [possibleRoot, if_pos hc, if_pos hb]
        show ((((s.setColor o Color.purple).setBuffered o true)).hd v).buffered =
          (s.hd v).buffered
        rw [setBuffered_buffered, if_neg hv]
        exact ((setColor_hframe s o Color.purple).2.2.2 v).1
    · left
      constructor
      · simp only [possibleRoot, if_pos hc, if_neg hb]
        exact (setColor_hframe s o Color.purple).1
      · intro v
        simp only [possibleRoot, if_pos hc, if_neg hb]
        exact ((setColor_hframe s o Color.purple).2.2.2 v).1
  · left
    simp [possibleRoot, hc]

/-- `possible_root` preserves the buffer invariant. -/
theorem possibleRoot_BufInv (s : St n) (o : Fin n) (h : BufInv s) :
    BufInv (possibleRoot s o) := by
  obtain ⟨hnd, hiff⟩ := h
  rcases possibleRoot_spec s o with ⟨hr, hf⟩ | ⟨hb0, hr, hfo, hf⟩
  · refine ⟨by rw [hr]; exact hnd, fun v => ?_⟩
    rw [hf v, hr]
    exact hiff v
  · have honot : o ∉ s.roots := by
      intro hmem
      rw [(hiff o).mpr hmem] at hb0
      cases hb0
    refine ⟨?_, fun v => ?_⟩
    · rw [hr]
      exact List.Nodup.append hnd (List.nodup_singleton o)
        (by
          intro a ha hb
          rw [List.mem_singleton.mp hb] at ha
          exact honot ha)
    · rw [hr]
      by_cases hvo : v = o
      · subst hvo
        simp [hfo]
      · rw [hf v hvo]
        rw [hiff v]
        simp [hvo]

/-- The drained-buffer loop of `mark_roots` keeps the buffered flags in sync:
flags are set exactly on the kept entries plus the unprocessed suffix. -/
theorem markRoots_fold_inv (ch : Fin n → List (Fin n)) (fuel : Nat) :
    ∀ (l : List (Fin n)) (t : St n) (kept : List (Fin n)) (cnt : Nat),
      t.roots = [] →
      (kept ++ l).Nodup →
      (∀ v, (t.hd v).buffered = true ↔ v ∈ kept ++ l) →
      (l.foldl (markRootsStep ch fuel) (t, kept, cnt)).1.roots = [] ∧
      (l.foldl (markRootsStep ch fuel) (t, kept, cnt)).2.1.Nodup ∧
      (∀ v, ((l.foldl (markRootsStep ch fuel) (t, kept, cnt)).1.hd v).buffered = true ↔
        v ∈ (l.foldl (markRootsStep ch fuel) (t, kept, cnt)).2.1) := by
  intro l
  induction l with
  | nil =>
    intro t kept cnt hroots hnd hiff
    simp only [List.foldl_nil]
    exact ⟨hroots, by simpa using hnd, fun v => by simpa using hiff v⟩
  | cons r l ih =>
    intro t kept cnt hroots hnd hiff
    rw [List.foldl_cons]
    by_cases hp : t.color r = Color.purple
    · have hstep : markRootsStep ch fuel (t, kept, cnt) r =
          (markGray ch fuel t r, kept ++ [r], cnt) := by
        simp [markRootsStep, hp]
      rw [hstep]
      have hf := markGray_hframe ch fuel t r
      apply ih
      · rw [hf.1, hroots]
      · simpa [List.append_assoc] using hnd
      · intro v
        rw [(hf.2.2.2 v).1, hiff v]
        simp [List.append_assoc]
    · obtain ⟨hnd1, hnd2, hdisj⟩ := List.nodup_append.mp hnd
      have hrnotkept : r ∉ kept := fun hmem => hdisj hmem (List.mem_cons_self r l)
      have hrnotl : r ∉ l := (List.nodup_cons.mp hnd2).1
      have hndweak : (kept ++ l).Nodup := by
        refine List.nodup_append.mpr ⟨hnd1, (List.nodup_cons.mp hnd2).2, ?_⟩
        intro a ha hb
        exact hdisj ha (List.mem_cons_of_mem r hb)
      have hbase : ∀ v, ((t.setBuffered r false).hd v).buffered =
          (if v = r then false else (t.hd v).buffered) := setBuffered_buffered t r false
      have hbroots : (t.setBuffered r false).roots = [] := by
        rw [(setBuffered_frame t r false r).2.2.2.2.1]
        exact hroots
      have hflagiff : ∀ (t2 : St n),
          (∀ v, (t2.hd v).buffered = (if v = r then false else (t.hd v).buffered)) →
          ∀ v, (t2.hd v).buffered = true ↔ v ∈ kept ++ l := by
        intro t2 ht2 v
        rw [ht2 v]
        by_cases hvr : v = r
        · subst hvr
          simp [hrnotkept, hrnotl]
        · rw [if_neg hvr, hiff v]
          simp [hvr]
      by_cases hbd : (t.setBuffered r false).color r = Color.black ∧
          (t.setBuffered r false).rc r = 0
      · have hstep : markRootsStep ch fuel (t, kept, cnt) r =
            (deallocOnlyStep (t.setBuffered r false) r, kept, cnt + 1) := by
          simp [markRootsStep, hp, hbd]
        rw [hstep]
        apply ih _ kept (cnt + 1) ?_ hndweak ?_
        · rw [deallocOnlyStep_roots]
          exact hbroots
        · exact hflagiff _ (fun v => by
            rw [deallocOnlyStep_buffered]
            exact hbase v)
      · have hstep : markRootsStep ch fuel (t, kept, cnt) r =
            (t.setBuffered r false, kept, cnt) := by
          simp [markRootsStep, hp, hbd]
        rw [hstep]
        exact ih _ kept cnt hbroots hndweak (hflagiff _ hbase)

end RPGc

namespace RPGc

/-- `mark_roots` preserves the buffer invariant. -/
theorem markRoots_BufInv (ch : Fin n → List (Fin n)) (fuel : Nat) (s : St n)
    (h : BufInv s) : BufInv (markRoots ch fuel s).1 := by
  obtain ⟨hnd, hiff⟩ := h
  have hm := markRoots_fold_inv ch fuel s.roots { s with roots := [] } [] 0 rfl
    (by simpa using hnd) (fun v => by simpa using hiff v)
  constructor
  · show ((s.roots.foldl (markRootsStep ch fuel)
      ({ s with roots := [] }, ([] : List (Fin n)), 0)).1.roots ++
      (s.roots.foldl (markRootsStep ch fuel)
        ({ s with roots := [] }, ([] : List (Fin n)), 0)).2.1).Nodup
    rw [hm.1]
    simpa using hm.2.1
  · intro o
    show _ ↔ o ∈ (s.roots.foldl (markRootsStep ch fuel)
      ({ s with roots := [] }, ([] : List (Fin n)), 0)).1.roots ++
      (s.roots.foldl (markRootsStep ch fuel)
        ({ s with roots := [] }, ([] : List (Fin n)), 0)).2.1
    rw [hm.1]
    simpa using hm.2.2 o

/-- After the collection loop of `collect_roots`, the buffer is empty and
every buffered flag is clear (assuming the buffer invariant on entry). -/
theorem collectRootsWhite_clears (ch : Fin n → List (Fin n)) (fuel : Nat)
    (s : St n) (h : BufInv s) :
    (collectRootsWhite ch fuel s).1.roots = [] ∧
    ∀ v, (((collectRootsWhite ch fuel s).1).hd v).buffered = false := by
  obtain ⟨hnd, hiff⟩ := h
  have main : ∀ (l : List (Fin n)) (p : St n × List (Fin n)),
      ((p.1).roots = [] ∧ ∀ v, ((p.1).hd v).buffered = true → v ∈ l) →
      ((l.foldl (collectRootsStep ch fuel) p).1.roots = [] ∧
        ∀ v, (((l.foldl (collectRootsStep ch fuel) p).1).hd v).buffered = false) := by
    intro l
    induction l with
    | nil =>
      intro p hp
      simp only [List.foldl_nil]
      refine ⟨hp.1, fun v => ?_⟩
      cases hb : ((p.1).hd v).buffered
      · rfl
      · exact absurd (hp.2 v hb) (List.not_mem_nil v)
    | cons r l ih =>
      intro p hp
      rw [List.foldl_cons]
      have hstep : collectRootsStep ch fuel p r =
          collectWhite ch fuel ((p.1).setBuffered r false) r p.2 := rfl
      rw [hstep]
      have R := collectWhite_rel ch fuel ((p.1).setBuffered r false) r p.2
      apply ih
      constructor
      · rw [R.2.2.2.2.2.1.1, (setBuffered_frame (p.1) r false r).2.2.2.2.1]
        exact hp.1
      · intro v hv
        rw [(R.2.2.2.2.2.1.2.2 v).1, setBuffered_buffered] at hv
        by_cases hvr : v = r
        · rw [if_pos hvr] at hv
          cases hv
        · rw [if_neg hvr] at hv
          have hmem := hp.2 v hv
          rcases List.mem_cons.mp hmem with h | h
          · exact absurd h hvr
          · exact h
  have hstart : (({ s with roots := [] } : St n), ([] : List (Fin n))).1.roots = [] ∧
      ∀ v, ((({ s with roots := [] } : St n), ([] : List (Fin n))).1.hd v).buffered =
        true → v ∈ s.roots := by
    exact ⟨rfl, fun v hv => (hiff v).mp hv⟩
  exact main s.roots _ hstart

/-- The `__del__` filter of `free_cycles` preserves the generalized buffer
invariant relative to its own resurrected list, provided every finalizer
does. -/
theorem filter_BufInvX (del : Fin n → Option (St n → St n)) (hdel : DelBufSafe del) :
    ∀ (w : List (Fin n)) (t : St n) (res keep : List (Fin n)),
      BufInvX t res →
      BufInvX (w.foldl (freeCyclesFilterStep del) (t, res, keep)).1
        (w.foldl (freeCyclesFilterStep del) (t, res, keep)).2.1 := by
  intro w
  induction w with
  | nil =>
    intro t res keep h
    simpa using h
  | cons i w ih =>
    intro t res keep h
    rw [List.foldl_cons]
    have hq : BufInvX (callDel del t i).1 res := by
      cases hdi : del i with
      | none => simpa [callDel, hdi] using h
      | some f =>
        have h1 : BufInvX (t.incRc i) res :=
          BufInvX_of_frame res (incRc_hframe t i).1
            (fun v => ((incRc_hframe t i).2.2.2 v).1) h
        have h2 : BufInvX (f (t.incRc i)) res := hdel i f hdi _ res h1
        have h3 : BufInvX ((f (t.incRc i)).decRc i) res :=
          BufInvX_of_frame res (decRc_hframe _ i).1
            (fun v => ((decRc_hframe _ i).2.2.2 v).1) h2
        have h4 : BufInvX (((f (t.incRc i)).decRc i).pushEvent (Event.delCall i)) res :=
          BufInvX_of_frame res rfl (fun _ => rfl) h3
        simpa [callDel, hdi] using h4
    by_cases hok : (callDel del t i).2
    · have hstep : freeCyclesFilterStep del (t, res, keep) i =
          ((callDel del t i).1, res, keep ++ [i]) := by
        simp [freeCyclesFilterStep, hok]
      rw [hstep]
      exact ih _ res _ hq
    · by_cases hbuf : (callDel del t i).1.buffered i
      · have hstep : freeCyclesFilterStep del (t, res, keep) i =
            ((callDel del t i).1, res, keep) := by
          simp [freeCyclesFilterStep, hok, hbuf]
        rw [hstep]
        exact ih _ res _ hq
      · have hstep : freeCyclesFilterStep del (t, res, keep) i =
            ((callDel del t i).1.setBuffered i true, res ++ [i], keep) := by
          simp [freeCyclesFilterStep, hok, hbuf]
        rw [hstep]
        apply ih
        obtain ⟨hnd, hiff⟩ := hq
        have hnotin : i ∉ (callDel del t i).1.roots ++ res := by
          intro hmem
          have := (hiff i).mpr hmem
          rw [St.buffered] at hbuf
          simp [this] at hbuf
        constructor
        · rw [(setBuffered_frame _ i true i).2.2.2.2.1]
          have : ((callDel del t i).1.roots ++ res) ++ [i] =
              (callDel del t i).1.roots ++ (res ++ [i]) := by
            simp [List.append_assoc]
          rw [← this]
          exact List.Nodup.append hnd (List.nodup_singleton i)
            (by
              intro a ha hb
              rw [List.mem_singleton.mp hb] at ha
              exact hnotin ha)
        · intro v
          rw [(setBuffered_frame _ i true v).2.2.2.2.1, setBuffered_buffered]
          by_cases hvi : v = i
          · subst hvi
            simp
          · rw [if_neg hvi, hiff v]
            simp [hvi]

end RPGc

namespace RPGc

/-- `BufInv` only depends on the buffer and the buffered flags. -/
theorem BufInv_of_frame {s s' : St n} (hroots : s'.roots = s.roots)
    (hflags : ∀ v, (s'.hd v).buffered = (s.hd v).buffered)
    (h : BufInv s) : BufInv s' := by
  obtain ⟨hnd, hiff⟩ := h
  refine ⟨by rw [hroots]; exact hnd, fun o => ?_⟩
  rw [hflags o, hroots]
  exact hiff o

/-- The destructor pass leaves the buffer unchanged. -/
theorem dropPass_roots (l : List (Fin n)) (s : St n) :
    (l.foldl (fun t j => dropOnlyStep t j) s).roots = s.roots := by
  refine foldlPreserve _ (fun t => t.roots = s.roots) ?_ l s rfl
  intro t a ht
  simpa [dropOnlyStep, St.pushEvent, St.upd] using ht

/-- The dealloc pass leaves the buffer unchanged. -/
theorem deallocPass_roots (l : List (Fin n)) (s : St n) :
    (l.foldl (fun t j => deallocOnlyStep t j) s).roots = s.roots := by
  refine foldlPreserve _ (fun t => t.roots = s.roots) ?_ l s rfl
  intro t a ht
  simpa [deallocOnlyStep, St.pushEvent, St.upd] using ht

/-- `free_cycles` preserves the buffer invariant when entered with an empty
buffer and fully cleared flags (the state `collect_roots` hands it). -/
theorem freeCycles_BufInv (ch : Fin n → List (Fin n))
    (del : Fin n → Option (St n → St n)) (hdel : DelBufSafe del) (s : St n)
    (white : List (Fin n)) (hroots : s.roots = [])
    (hflags : ∀ v, (s.hd v).buffered = false) :
    BufInv (freeCycles ch del s white).1 := by
  have hf0 := freeCyclesInc_frame ch s white
  have h0 : BufInvX (freeCyclesInc ch s white) [] := by
    refine ⟨?_, ?_⟩
    · rw [hf0.1, hroots]
      simp
    · intro o
      rw [(hf0.2.2 o).1, hf0.1, hroots]
      simp [hflags o]
  have h1 := filter_BufInvX del hdel white (freeCyclesInc ch s white) [] [] h0
  have h2 : BufInv ({ (freeCyclesFilter del (freeCyclesInc ch s white) white).1 with
      roots := (freeCyclesFilter del (freeCyclesInc ch s white) white).1.roots ++
        (freeCyclesFilter del (freeCyclesInc ch s white) white).2.1 } : St n) := h1
  have hfc : (freeCycles ch del s white).1 =
      (freeCyclesFilter del (freeCyclesInc ch s white) white).2.2.foldl
        (fun t j => deallocOnlyStep t j)
        ((freeCyclesFilter del (freeCyclesInc ch s white) white).2.2.foldl
          (fun t j => dropOnlyStep t j)
          ({ (freeCyclesFilter del (freeCyclesInc ch s white) white).1 with
            roots := (freeCyclesFilter del (freeCyclesInc ch s white) white).1.roots ++
              (freeCyclesFilter del (freeCyclesInc ch s white) white).2.1 } : St n)) := rfl
  rw [hfc]
  apply BufInv_of_frame (deallocPass_roots _ _)
    (fun v => (deallocPass_frame _ _ v).2.1)
  apply BufInv_of_frame (dropPass_roots _ _)
    (fun v => (dropPass_frame _ _ v).2.1)
  exact h2

/-- `collect_roots` (collection plus `free_cycles`) preserves the buffer
invariant. -/
theorem collectRoots_BufInv (ch : Fin n → List (Fin n))
    (del : Fin n → Option (St n → St n)) (hdel : DelBufSafe del) (fuel : Nat)
    (s : St n) (h : BufInv s) : BufInv (collectRoots ch del fuel s).1 := by
  have hc := collectRootsWhite_clears ch fuel s h
  exact freeCycles_BufInv ch del hdel (collectRootsWhite ch fuel s).1
    (collectRootsWhite ch fuel s).2 hc.1 hc.2

/-- Every atomic collector operation preserves the buffer invariant. -/
theorem GcStep_BufInv (ch : Fin n → List (Fin n))
    (del : Fin n → Option (St n → St n)) (hdel : DelBufSafe del) {s s' : St n}
    (hstep : GcStep ch del s s') (h : BufInv s) : BufInv s' := by
  cases hstep with
  | pRoot o => exact possibleRoot_BufInv s o h
  | dec o =>
    by_cases hlk : (s.hd o).leaked
    · simpa [decrement, hlk] using h
    · by_cases hrc : 0 < s.rc o
      · have hd : BufInv (s.decRc o) :=
          BufInv_of_frame (decRc_hframe s o).1
            (fun v => ((decRc_hframe s o).2.2.2 v).1) h
        by_cases hz : (s.decRc o).rc o = 0
        · have hd2 : BufInv ({ s.decRc o with
              deallocCnt := (s.decRc o).deallocCnt + 1 } : St n) :=
            BufInv_of_frame rfl (fun _ => rfl) hd
          have hrel : BufInv (release ({ s.decRc o with
              deallocCnt := (s.decRc o).deallocCnt + 1 } : St n) o).1 :=
            BufInv_of_frame (setColor_hframe _ o Color.black).1
              (fun v => (((setColor_hframe _ o Color.black).2.2.2) v).1) hd2
          simpa [decrement, hlk, hrc, hz] using hrel
        · have := possibleRoot_BufInv (s.decRc o) o hd
          simpa [decrement, hlk, hrc, hz] using this
      · simpa [decrement, hlk, hrc] using h
  | mark fuel => exact markRoots_BufInv ch fuel s h
  | scanR fuel =>
    have hfr : HFrame s (scanRoots ch fuel s) := by
      unfold scanRoots
      exact foldlPreserve _ (fun t => HFrame s t)
        (fun t a ht => HFrame_trans ht (scan_hframe ch fuel t a)) _ s (HFrame_refl s)
    exact BufInv_of_frame hfr.1 (fun v => (hfr.2.2.2 v).1) h
  | collectR fuel => exact collectRoots_BufInv ch del hdel fuel s h

/-! Claim C8. -/

/-- Claim C8: at every state reachable (from a state satisfying the
invariant) by any interleaving of `possible_root`, mutator decrements, and
the mark / scan / collect phases — the collect phase including `free_cycles`
and with it the resurrection re-buffering — the root buffer holds no object
twice and an object's buffered flag is set exactly when it has an entry in
the buffer.  Finalizers are assumed to preserve the (generalized) buffer
invariant, as every composition of the mutator operations does. -/
theorem C8_buffer_single_membership (ch : Fin n → List (Fin n))
    (del : Fin n → Option (St n → St n)) (hdel : DelBufSafe del) (s0 s : St n)
    (hinv : BufInv s0)
    (hreach : Relation.ReflTransGen (GcStep ch del) s0 s) : BufInv s := by
  induction hreach with
  | refl => exact hinv
  | tail hab hbc ih => exact GcStep_BufInv ch del hdel hbc ih

/-- Claim C8 witness: from a fresh state, buffering object 0 as a possible
root yields a state that still satisfies the buffer invariant. -/
theorem C8_buffer_single_membership_witness :
    BufInv stInit ∧ DelBufSafe delNone1 ∧ BufInv (possibleRoot stInit 0) := by
  have hinv : BufInv stInit := by
    refine ⟨List.nodup_nil, fun o => ?_⟩
    simp [stInit, mkSt1, mkHdr]
  have hdel : DelBufSafe delNone1 := by
    intro i f hif
    simp [delNone1] at hif
  exact ⟨hinv, hdel,
    C8_buffer_single_membership chLoop delNone1 hdel stInit (possibleRoot stInit 0)
      hinv (Relation.ReflTransGen.single (GcStep.pRoot stInit 0))⟩

end RPGc

namespace RPGc

/-! Pointwise lemmas for the C1 (cycle reclamation) development. -/

theorem setColor_color (s : St n) (i : Fin n) (c : Color) (v : Fin n) :
    (s.setColor i c).color v = if v = i then c else s.color v := by
  by_cases hv : v = i
  · subst hv
    simp [St.setColor, St.color, upd_hd]
  · simp [St.setColor, St.color, upd_hd, hv]

theorem setInCycle_color (s : St n) (i : Fin n) (b : Bool) (v : Fin n) :
    (s.setInCycle i b).color v = s.color v := by
  by_cases hv : v = i
  · subst hv
    simp [St.setInCycle, St.color, upd_hd]
  · simp [St.setInCycle, St.color, upd_hd, hv]

theorem setInCycle_rc (s : St n) (i : Fin n) (b : Bool) (v : Fin n) :
    (s.setInCycle i b).rc v = s.rc v := by
  by_cases hv : v = i
  · subst hv
    simp [St.setInCycle, St.rc, upd_hd]
  · simp [St.setInCycle, St.rc, upd_hd, hv]

theorem setColor_rc (s : St n) (i : Fin n) (c : Color) (v : Fin n) :
    (s.setColor i c).rc v = s.rc v := by
  by_cases hv : v = i
  · subst hv
    simp [St.setColor, St.rc, upd_hd]
  · simp [St.setColor, St.rc, upd_hd, hv]

theorem decRc_color (s : St n) (i : Fin n) (v : Fin n) :
    (s.decRc i).color v = s.color v := by
  by_cases hv : v = i
  · subst hv
    simp [St.decRc, St.color, upd_hd]
  · simp [St.decRc, St.color, upd_hd, hv]

theorem decRc_rc (s : St n) (i : Fin n) (v : Fin n) :
    (s.decRc i).rc v = if v = i then s.rc v - 1 else s.rc v := by
  by_cases hv : v = i
  · subst hv
    simp [St.decRc, St.rc, upd_hd]
  · simp [St.decRc, St.rc, upd_hd, hv]

theorem mem_grayF {s : St n} {v : Fin n} : v ∈ grayF s ↔ s.color v = Color.gray := by
  simp [grayF]

theorem mem_whiteF {s : St n} {v : Fin n} : v ∈ whiteF s ↔ s.color v = Color.white := by
  simp [whiteF]

theorem grayF_setColor_gray (s : St n) (o : Fin n) :
    grayF (s.setColor o Color.gray) = insert o (grayF s) := by
  ext v
  rw [mem_grayF, setColor_color]
  by_cases hv : v = o
  · subst hv
    simp
  · simp [hv, mem_grayF]

theorem grayF_decRc (s : St n) (i : Fin n) : grayF (s.decRc i) = grayF s := by
  ext v
  rw [mem_grayF, decRc_color, ← mem_grayF]

theorem decFrom_empty (ch : Fin n → List (Fin n)) (v : Fin n) :
    decFrom ch ∅ v = 0 := by
  simp [decFrom]

theorem decFrom_singleton (ch : Fin n → List (Fin n)) (o : Fin n) (v : Fin n) :
    decFrom ch {o} v = (ch o).count v := by
  simp [decFrom]

/-- Splitting the trial-decrement total along a chain of gray sets. -/
theorem decFrom_sdiff_chain (ch : Fin n → List (Fin n)) {A B C : Finset (Fin n)}
    (hAB : A ⊆ B) (hBC : B ⊆ C) (v : Fin n) :
    decFrom ch (C \ A) v = decFrom ch (C \ B) v + decFrom ch (B \ A) v := by
  unfold decFrom
  rw [← Finset.sum_union]
  · congr 1
    ext x
    have h1 : x ∈ A → x ∈ B := fun h => hAB h
    have h2 : x ∈ B → x ∈ C := fun h => hBC h
    simp only [Finset.mem_union, Finset.mem_sdiff]
    tauto
  · rw [Finset.disjoint_left]
    intro x hx hx2
    rw [Finset.mem_sdiff] at hx hx2
    exact hx.2 hx2.1

/-- Dropping the newly inserted element from a complement. -/
theorem sdiff_insert_of_mem {A : Finset (Fin n)} {o : Fin n}
    (_ho : o ∈ Finset.univ \ A) :
    Finset.univ \ insert o A = (Finset.univ \ A).erase o := by
  ext x
  simp only [Finset.mem_sdiff, Finset.mem_insert, Finset.mem_erase, Finset.mem_univ,
    true_and]
  tauto

theorem decFrom_insert (ch : Fin n → List (Fin n)) {A : Finset (Fin n)} {o : Fin n}
    (ho : o ∉ A) (v : Fin n) :
    decFrom ch (Finset.univ \ A) v =
      decFrom ch (Finset.univ \ insert o A) v + (ch o).count v := by
  have h1 : Finset.univ \ A = insert o (Finset.univ \ insert o A) := by
    ext x
    simp only [Finset.mem_sdiff, Finset.mem_insert, Finset.mem_univ, true_and]
    by_cases hx : x = o
    · subst hx
      simp [ho]
    · simp [hx]
  rw [h1]
  unfold decFrom
  rw [Finset.sum_insert]
  · ring
  · simp

end RPGc

namespace RPGc

/-- Full specification of `mark_gray` on leak-free heaps: starting the walk
at `o` with enough fuel (more than the number of non-Gray objects) and a ref
count budget covering all trial decrements still to come (`g` is the pending
slack), the walk (i) only adds Gray, (ii) grays `o`, (iii) leaves the fresh
Gray set closed under children, (iv) decrements each object exactly once per
owned reference held by a freshly grayed object, and (v) maintains the
budget. -/
theorem markGray_spec (ch : Fin n → List (Fin n)) :
    ∀ (fuel : Nat) (s : St n) (o : Fin n) (g : Fin n → Nat),
      (Finset.univ \ grayF s).card < fuel →
      (∀ v, decFrom ch (Finset.univ \ grayF s) v + g v ≤ s.rc v) →
      (∀ v, (s.hd v).leaked = false) →
      (grayF s ⊆ grayF (markGray ch fuel s o)) ∧
      o ∈ grayF (markGray ch fuel s o) ∧
      (∀ u ∈ grayF (markGray ch fuel s o) \ grayF s, ∀ c ∈ ch u,
        c ∈ grayF (markGray ch fuel s o)) ∧
      (∀ v, (markGray ch fuel s o).rc v +
        decFrom ch (grayF (markGray ch fuel s o) \ grayF s) v = s.rc v) ∧
      (∀ v, decFrom ch (Finset.univ \ grayF (markGray ch fuel s o)) v + g v ≤
        (markGray ch fuel s o).rc v) := by
  intro fuel
  induction fuel with
  | zero =>
    intro s o g hfuel hwf hlk
    exact absurd hfuel (Nat.not_lt_zero _)
  | succ fuel ih =>
    intro s o g hfuel hwf hlk
    by_cases hc : s.color o = Color.gray
    · rw [markGray, if_pos hc]
      refine ⟨Finset.Subset.refl _, mem_grayF.mpr hc, ?_, ?_, hwf⟩
      · intro u hu
        rw [Finset.mem_sdiff] at hu
        exact absurd hu.1 hu.2
      · intro v
        rw [Finset.sdiff_self, decFrom_empty]
        omega
    · rw [markGray, if_neg hc]
      have honot : o ∉ grayF s := fun hmem => hc (mem_grayF.mp hmem)
      have hgray1 : grayF (s.setColor o Color.gray) = insert o (grayF s) :=
        grayF_setColor_gray s o
      have hrc1 : ∀ v, (s.setColor o Color.gray).rc v = s.rc v :=
        fun v => setColor_rc s o Color.gray v
      have hlk1 : ∀ v, ((s.setColor o Color.gray).hd v).leaked = false := fun v => by
        rw [((setColor_hframe s o Color.gray).2.2.2 v).2.2.2.2]
        exact hlk v
      have hcard1 : (Finset.univ \ grayF (s.setColor o Color.gray)).card < fuel := by
        rw [hgray1, sdiff_insert_of_mem (by simp [honot])]
        rw [Finset.card_erase_of_mem (by simp [honot])]
        have h1 : 0 < (Finset.univ \ grayF s).card := by
          refine Finset.card_pos.mpr ⟨o, ?_⟩
          simp [honot]
        omega
      have FOLD : ∀ (l : List (Fin n)) (t : St n),
          grayF (s.setColor o Color.gray) ⊆ grayF t →
          (∀ v, (t.hd v).leaked = false) →
          (∀ v, decFrom ch (Finset.univ \ grayF t) v + (g v + l.count v) ≤ t.rc v) →
          (grayF t ⊆ grayF (l.foldl (fun t c =>
            if (t.hd c).leaked then t else markGray ch fuel (t.decRc c) c) t)) ∧
          (∀ x ∈ l, x ∈ grayF (l.foldl (fun t c =>
            if (t.hd c).leaked then t else markGray ch fuel (t.decRc c) c) t)) ∧
          (∀ u ∈ grayF (l.foldl (fun t c =>
              if (t.hd c).leaked then t else markGray ch fuel (t.decRc c) c) t) \
              grayF t, ∀ x ∈ ch u, x ∈ grayF (l.foldl (fun t c =>
            if (t.hd c).leaked then t else markGray ch fuel (t.decRc c) c) t)) ∧
          (∀ v, (l.foldl (fun t c =>
            if (t.hd c).leaked then t else markGray ch fuel (t.decRc c) c) t).rc v +
            decFrom ch (grayF (l.foldl (fun t c =>
              if (t.hd c).leaked then t else markGray ch fuel (t.decRc c) c) t) \
              grayF t) v + l.count v = t.rc v) ∧
          (∀ v, decFrom ch (Finset.univ \ grayF (l.foldl (fun t c =>
            if (t.hd c).leaked then t else markGray ch fuel (t.decRc c) c) t)) v +
            g v ≤ (l.foldl (fun t c =>
            if (t.hd c).leaked then t else markGray ch fuel (t.decRc c) c) t).rc v) ∧
          (∀ v, ((l.foldl (fun t c =>
            if (t.hd c).leaked then t
            else markGray ch fuel (t.decRc c) c) t).hd v).leaked = false) := by
        intro l
        induction l with
        | nil =>
          intro t hsub hlkt hwft
          simp only [List.foldl_nil]
          refine ⟨Finset.Subset.refl _, by simp, ?_, ?_, ?_, hlkt⟩
          · intro u hu
            rw [Finset.mem_sdiff] at hu
            exact absurd hu.1 hu.2
          · intro v
            rw [Finset.sdiff_self, decFrom_empty]
            simp
          · intro v
            have := hwft v
            simp only [List.count_nil] at this
            omega
        | cons c l2 ihl =>
          intro t hsub hlkt hwft
          rw [List.foldl_cons]
          have hstep : (if (t.hd c).leaked then t
              else markGray ch fuel (t.decRc c) c) = markGray ch fuel (t.decRc c) c := by
            rw [hlkt c]
            simp
          rw [hstep]
          have hrct : 1 ≤ t.rc c := by
            have h1 := hwft c
            have h2 : (c :: l2).count c = l2.count c + 1 := List.count_cons_self c l2
            omega
          have hgdec : grayF (t.decRc c) = grayF t := grayF_decRc t c
          have hcarddec : (Finset.univ \ grayF (t.decRc c)).card < fuel := by
            rw [hgdec]
            calc (Finset.univ \ grayF t).card
                ≤ (Finset.univ \ grayF (s.setColor o Color.gray)).card := by
                  refine Finset.card_le_card ?_
                  exact Finset.sdiff_subset_sdiff (Finset.Subset.refl _) hsub
              _ < fuel := hcard1
          have hwfdec : ∀ v, decFrom ch (Finset.univ \ grayF (t.decRc c)) v +
              (g v + l2.count v) ≤ (t.decRc c).rc v := by
            intro v
            rw [hgdec, decRc_rc]
            by_cases hvc : v = c
            · subst hvc
              have h1 := hwft v
              have h2 : (v :: l2).count v = l2.count v + 1 := List.count_cons_self v l2
              rw [if_pos rfl]
              omega
            · have h1 := hwft v
              have h2 : (c :: l2).count v = l2.count v :=
                List.count_cons_of_ne hvc l2
              rw [if_neg hvc]
              omega
          have hlkdec : ∀ v, ((t.decRc c).hd v).leaked = false := fun v => by
            rw [((decRc_hframe t c).2.2.2 v).2.2.2.2]
            exact hlkt v
          obtain ⟨m1, m2, m3, m4, m5⟩ := ih (t.decRc c) c (fun v => g v + l2.count v)
            hcarddec hwfdec hlkdec
          have hsub2 : grayF (s.setColor o Color.gray) ⊆
              grayF (markGray ch fuel (t.decRc c) c) := by
            refine hsub.trans ?_
            rw [← hgdec]
            exact m1
          have hlk2 : ∀ v, ((markGray ch fuel (t.decRc c) c).hd v).leaked = false :=
            fun v => by
              rw [((markGray_hframe ch fuel (t.decRc c) c).2.2.2 v).2.2.2.2]
              exact hlkdec v
          obtain ⟨f1, f2, f3, f4, f5, f6⟩ :=
            ihl (markGray ch fuel (t.decRc c) c) hsub2 hlk2 m5
          have hchain1 : grayF t ⊆ grayF (markGray ch fuel (t.decRc c) c) := by
            rw [← hgdec]
            exact m1
          refine ⟨hchain1.trans f1, ?_, ?_, ?_, f5, f6⟩
          · intro x hx
            rcases List.mem_cons.mp hx with h | h
            · subst h
              exact f1 m2
            · exact f2 x h
          · intro u hu hxc
            rw [Finset.mem_sdiff] at hu
            by_cases hu2 : u ∈ grayF (markGray ch fuel (t.decRc c) c)
            · have hm : u ∈ grayF (markGray ch fuel (t.decRc c) c) \ grayF (t.decRc c) := by
                rw [Finset.mem_sdiff, hgdec]
                exact ⟨hu2, hu.2⟩
              intro hxmem
              exact f1 (m3 u hm hxc hxmem)
            · have hm : u ∈ grayF (l2.foldl (fun t c =>
                  if (t.hd c).leaked then t else markGray ch fuel (t.decRc c) c)
                  (markGray ch fuel (t.decRc c) c)) \
                  grayF (markGray ch fuel (t.decRc c) c) := by
                rw [Finset.mem_sdiff]
                exact ⟨hu.1, hu2⟩
              exact f3 u hm hxc
          · intro v
            have e4 := f4 v
            have e5 := m4 v
            have edec : (t.decRc c).rc v = if v = c then t.rc v - 1 else t.rc v :=
              decRc_rc t c v
            have echain : decFrom ch (grayF (l2.foldl (fun t c =>
                if (t.hd c).leaked then t else markGray ch fuel (t.decRc c) c)
                (markGray ch fuel (t.decRc c) c)) \ grayF t) v =
                decFrom ch (grayF (l2.foldl (fun t c =>
                  if (t.hd c).leaked then t else markGray ch fuel (t.decRc c) c)
                  (markGray ch fuel (t.decRc c) c)) \
                  grayF (markGray ch fuel (t.decRc c) c)) v +
                decFrom ch (grayF (markGray ch fuel (t.decRc c) c) \ grayF t) v :=
              decFrom_sdiff_chain ch hchain1 f1 v
            have echain2 : decFrom ch (grayF (markGray ch fuel (t.decRc c) c) \
                grayF t) v = decFrom ch (grayF (markGray ch fuel (t.decRc c) c) \
                grayF (t.decRc c)) v := by
              rw [hgdec]
            by_cases hvc : v = c
            · subst hvc
              have h2 : (v :: l2).count v = l2.count v + 1 := List.count_cons_self v l2
              rw [if_pos rfl] at edec
              omega
            · have h2 : (c :: l2).count v = l2.count v :=
                List.count_cons_of_ne hvc l2
              rw [if_neg hvc] at edec
              omega
      have hwfs1 : ∀ v, decFrom ch (Finset.univ \ grayF (s.setColor o Color.gray)) v +
          (g v + (ch o).count v) ≤ (s.setColor o Color.gray).rc v := by
        intro v
        rw [hgray1, hrc1]
        have := decFrom_insert ch honot v
        have h2 := hwf v
        omega
      obtain ⟨F1, F2, F3, F4, F5, F6⟩ := FOLD (ch o) (s.setColor o Color.gray)
        (Finset.Subset.refl _) hlk1 hwfs1
      have hsubs1 : grayF s ⊆ grayF (s.setColor o Color.gray) := by
        rw [hgray1]
        exact Finset.subset_insert o (grayF s)
      have hos1 : o ∈ grayF (s.setColor o Color.gray) := by
        rw [hgray1]
        exact Finset.mem_insert_self o (grayF s)
      refine ⟨hsubs1.trans F1, F1 hos1, ?_, ?_, F5⟩
      · intro u hu x hx
        rw [Finset.mem_sdiff] at hu
        by_cases huo : u = o
        · subst huo
          exact F2 x hx
        · have hm : u ∈ grayF ((ch o).foldl (fun t c =>
              if (t.hd c).leaked then t else markGray ch fuel (t.decRc c) c)
              (s.setColor o Color.gray)) \ grayF (s.setColor o Color.gray) := by
            rw [Finset.mem_sdiff]
            refine ⟨hu.1, ?_⟩
            rw [hgray1]
            intro hmem
            rcases Finset.mem_insert.mp hmem with h | h
            · exact huo h
            · exact hu.2 h
          exact F3 u hm x hx
      · intro v
        show ((ch o).foldl (fun t c =>
            if (t.hd c).leaked then t else markGray ch fuel (t.decRc c) c)
            (s.setColor o Color.gray)).rc v +
          decFrom ch (grayF ((ch o).foldl (fun t c =>
            if (t.hd c).leaked then t else markGray ch fuel (t.decRc c) c)
            (s.setColor o Color.gray)) \ grayF s) v = s.rc v
        have e4 := F4 v
        have echain : decFrom ch (grayF ((ch o).foldl (fun t c =>
            if (t.hd c).leaked then t else markGray ch fuel (t.decRc c) c)
            (s.setColor o Color.gray)) \ grayF s) v =
            decFrom ch (grayF ((ch o).foldl (fun t c =>
              if (t.hd c).leaked then t else markGray ch fuel (t.decRc c) c)
              (s.setColor o Color.gray)) \ grayF (s.setColor o Color.gray)) v +
            decFrom ch (grayF (s.setColor o Color.gray) \ grayF s) v :=
          decFrom_sdiff_chain ch hsubs1 F1 v
        have hsingle : grayF (s.setColor o Color.gray) \ grayF s = {o} := by
          rw [hgray1]
          ext x
          simp only [Finset.mem_sdiff, Finset.mem_insert, Finset.mem_singleton]
          by_cases hx : x = o
          · subst hx
            simp [honot]
          · simp [hx]
        rw [hsingle, decFrom_singleton] at echain
        have := hrc1 v
        omega

end RPGc

namespace RPGc

theorem whiteF_setColor_white (s : St n) (o : Fin n) :
    whiteF (s.setColor o Color.white) = insert o (whiteF s) := by
  ext v
  rw [mem_whiteF, setColor_color]
  by_cases hv : v = o
  · subst hv
    simp
  · simp [hv, mem_whiteF]

/-- Specification of `scan` in the all-trial-deleted situation: every object
is Gray or White with ref count 0, so `scan_black` is unreachable and the
walk whitens `o` and leaves the freshly whitened set closed under children,
with colors staying in the Gray / White domain and ref counts at 0. -/
theorem scan_whitens (ch : Fin n → List (Fin n)) :
    ∀ (fuel : Nat) (s : St n) (o : Fin n),
      (Finset.univ \ whiteF s).card < fuel →
      (∀ v, s.color v = Color.gray ∨ s.color v = Color.white) →
      (∀ v, s.rc v = 0) →
      (∀ v, (s.hd v).leaked = false) →
      (whiteF s ⊆ whiteF (scan ch fuel s o)) ∧
      o ∈ whiteF (scan ch fuel s o) ∧
      (∀ u ∈ whiteF (scan ch fuel s o) \ whiteF s, ∀ c ∈ ch u,
        c ∈ whiteF (scan ch fuel s o)) ∧
      (∀ v, (scan ch fuel s o).color v = Color.gray ∨
        (scan ch fuel s o).color v = Color.white) ∧
      (∀ v, (scan ch fuel s o).rc v = 0) ∧
      (∀ v, ((scan ch fuel s o).hd v).leaked = false) := by
  intro fuel
  induction fuel with
  | zero =>
    intro s o hfuel hdom hrc hlk
    exact absurd hfuel (Nat.not_lt_zero _)
  | succ fuel ih =>
    intro s o hfuel hdom hrc hlk
    by_cases hc : s.color o = Color.gray
    · have hz : ¬(0 < s.rc o) := by
        rw [hrc o]
        omega
      rw [scan, if_pos hc, if_neg hz]
      have honot : o ∉ whiteF s := by
        rw [mem_whiteF, hc]
        simp
      have hwhite1 : whiteF (s.setColor o Color.white) = insert o (whiteF s) :=
        whiteF_setColor_white s o
      have hdom1 : ∀ v, (s.setColor o Color.white).color v = Color.gray ∨
          (s.setColor o Color.white).color v = Color.white := by
        intro v
        rw [setColor_color]
        by_cases hv : v = o
        · simp [hv]
        · simp [hv, hdom v]
      have hrc1 : ∀ v, (s.setColor o Color.white).rc v = 0 := fun v => by
        rw [setColor_rc]
        exact hrc v
      have hlk1 : ∀ v, ((s.setColor o Color.white).hd v).leaked = false := fun v => by
        rw [((setColor_hframe s o Color.white).2.2.2 v).2.2.2.2]
        exact hlk v
      have hcard1 : (Finset.univ \ whiteF (s.setColor o Color.white)).card < fuel := by
        rw [hwhite1, sdiff_insert_of_mem (by simp [honot])]
        rw [Finset.card_erase_of_mem (by simp [honot])]
        have h1 : 0 < (Finset.univ \ whiteF s).card := by
          refine Finset.card_pos.mpr ⟨o, ?_⟩
          simp [honot]
        omega
      have FOLD : ∀ (l : List (Fin n)) (t : St n),
          whiteF (s.setColor o Color.white) ⊆ whiteF t →
          (∀ v, t.color v = Color.gray ∨ t.color v = Color.white) →
          (∀ v, t.rc v = 0) →
          (∀ v, (t.hd v).leaked = false) →
          (whiteF t ⊆ whiteF (l.foldl (fun t c =>
            if (t.hd c).leaked then t else scan ch fuel t c) t)) ∧
          (∀ x ∈ l, x ∈ whiteF (l.foldl (fun t c =>
            if (t.hd c).leaked then t else scan ch fuel t c) t)) ∧
          (∀ u ∈ whiteF (l.foldl (fun t c =>
              if (t.hd c).leaked then t else scan ch fuel t c) t) \ whiteF t,
            ∀ x ∈ ch u, x ∈ whiteF (l.foldl (fun t c =>
              if (t.hd c).leaked then t else scan ch fuel t c) t)) ∧
          (∀ v, (l.foldl (fun t c =>
            if (t.hd c).leaked then t else scan ch fuel t c) t).color v = Color.gray ∨
            (l.foldl (fun t c =>
              if (t.hd c).leaked then t else scan ch fuel t c) t).color v =
              Color.white) ∧
          (∀ v, (l.foldl (fun t c =>
            if (t.hd c).leaked then t else scan ch fuel t c) t).rc v = 0) ∧
          (∀ v, ((l.foldl (fun t c =>
            if (t.hd c).leaked then t else scan ch fuel t c) t).hd v).leaked =
            false) := by
        intro l
        induction l with
        | nil =>
          intro t hsub hdomt hrct hlkt
          simp only [List.foldl_nil]
          refine ⟨Finset.Subset.refl _, by simp, ?_, hdomt, hrct, hlkt⟩
          intro u hu
          rw [Finset.mem_sdiff] at hu
          exact absurd hu.1 hu.2
        | cons c l2 ihl =>
          intro t hsub hdomt hrct hlkt
          rw [List.foldl_cons]
          have hstep : (if (t.hd c).leaked then t else scan ch fuel t c) =
              scan ch fuel t c := by
            rw [hlkt c]
            simp
          rw [hstep]
          have hcardt : (Finset.univ \ whiteF t).card < fuel := by
            calc (Finset.univ \ whiteF t).card
                ≤ (Finset.univ \ whiteF (s.setColor o Color.white)).card := by
                  refine Finset.card_le_card ?_
                  exact Finset.sdiff_subset_sdiff (Finset.Subset.refl _) hsub
              _ < fuel := hcard1
          obtain ⟨m1, m2, m3, m4, m5, m6⟩ := ih t c hcardt hdomt hrct hlkt
          obtain ⟨f1, f2, f3, f4, f5, f6⟩ := ihl (scan ch fuel t c)
            (hsub.trans m1) m4 m5 m6
          refine ⟨m1.trans f1, ?_, ?_, f4, f5, f6⟩
          · intro x hx
            rcases List.mem_cons.mp hx with h | h
            · subst h
              exact f1 m2
            · exact f2 x h
          · intro u hu hxc hxm
            rw [Finset.mem_sdiff] at hu
            by_cases hu2 : u ∈ whiteF (scan ch fuel t c)
            · have hm : u ∈ whiteF (scan ch fuel t c) \ whiteF t := by
                rw [Finset.mem_sdiff]
                exact ⟨hu2, hu.2⟩
              exact f1 (m3 u hm hxc hxm)
            · have hm : u ∈ whiteF (l2.foldl (fun t c =>
                  if (t.hd c).leaked then t else scan ch fuel t c)
                  (scan ch fuel t c)) \ whiteF (scan ch fuel t c) := by
                rw [Finset.mem_sdiff]
                exact ⟨hu.1, hu2⟩
              exact f3 u hm hxc hxm
      obtain ⟨F1, F2, F3, F4, F5, F6⟩ := FOLD (ch o) (s.setColor o Color.white)
        (Finset.Subset.refl _) hdom1 hrc1 hlk1
      have hsubs1 : whiteF s ⊆ whiteF (s.setColor o Color.white) := by
        rw [hwhite1]
        exact Finset.subset_insert o (whiteF s)
      have hos1 : o ∈ whiteF (s.setColor o Color.white) := by
        rw [hwhite1]
        exact Finset.mem_insert_self o (whiteF s)
      refine ⟨hsubs1.trans F1, F1 hos1, ?_, F4, F5, F6⟩
      intro u hu x hx
      rw [Finset.mem_sdiff] at hu
      by_cases huo : u = o
      · subst huo
        exact F2 x hx
      · have hm : u ∈ whiteF ((ch o).foldl (fun t c =>
            if (t.hd c).leaked then t else scan ch fuel t c)
            (s.setColor o Color.white)) \ whiteF (s.setColor o Color.white) := by
          rw [Finset.mem_sdiff]
          refine ⟨hu.1, ?_⟩
          rw [hwhite1]
          intro hmem
          rcases Finset.mem_insert.mp hmem with h | h
          · exact huo h
          · exact hu.2 h
        exact F3 u hm x hx
    · rcases hdom o with h | h
      · exact absurd h hc
      · rw [scan, if_neg hc]
        refine ⟨Finset.Subset.refl _, mem_whiteF.mpr h, ?_, hdom, hrc, hlk⟩
        intro u hu
        rw [Finset.mem_sdiff] at hu
        exact absurd hu.1 hu.2

end RPGc

namespace RPGc

theorem whiteF_blacken (s : St n) (o : Fin n) :
    whiteF ((s.setColor o Color.black).setInCycle o true) = (whiteF s).erase o := by
  ext v
  rw [mem_whiteF, setInCycle_color, setColor_color]
  by_cases hv : v = o
  · subst hv
    simp
  · simp [hv, Finset.mem_erase, mem_whiteF]

/-- Specification of `collect_white` on a fully scanned garbage heap: every
object is White or Black, nothing is buffered, and Black stands exactly for
"already on the white list or on the pending spine `P` of the enclosing
walk".  The call collects `o` (unless an enclosing frame is already
collecting it), keeps the list closed under children up to the pending
spine, and maintains all invariants. -/
theorem collectWhite_covers (ch : Fin n → List (Fin n)) :
    ∀ (fuel : Nat) (s : St n) (o : Fin n) (acc P : List (Fin n)),
      (whiteF s).card < fuel →
      (∀ v, s.color v = Color.black ↔ (v ∈ acc ∨ v ∈ P)) →
      (∀ v, s.color v = Color.white ∨ s.color v = Color.black) →
      (∀ v, (s.hd v).buffered = false) →
      (∀ v, (s.hd v).leaked = false) →
      (∀ u ∈ acc, ∀ c ∈ ch u, c ∈ acc ∨ c ∈ P) →
      (∀ x ∈ acc, x ∈ (collectWhite ch fuel s o acc).2) ∧
      (o ∈ (collectWhite ch fuel s o acc).2 ∨ o ∈ P) ∧
      (∀ u ∈ (collectWhite ch fuel s o acc).2, ∀ c ∈ ch u,
        c ∈ (collectWhite ch fuel s o acc).2 ∨ c ∈ P) ∧
      (∀ v, ((collectWhite ch fuel s o acc).1.color v = Color.black ↔
        (v ∈ (collectWhite ch fuel s o acc).2 ∨ v ∈ P))) ∧
      (∀ v, (collectWhite ch fuel s o acc).1.color v = Color.white ∨
        (collectWhite ch fuel s o acc).1.color v = Color.black) ∧
      (∀ v, ((collectWhite ch fuel s o acc).1.hd v).buffered = false) ∧
      (∀ v, ((collectWhite ch fuel s o acc).1.hd v).leaked = false) := by
  intro fuel
  induction fuel with
  | zero =>
    intro s o acc P hfuel
    exact absurd hfuel (Nat.not_lt_zero _)
  | succ fuel ih =>
    intro s o acc P hfuel hiff hdom hbuf hlk hcl
    by_cases hw : s.color o = Color.white
    · have hcond : s.color o = Color.white ∧ s.buffered o = false := by
        exact ⟨hw, hbuf o⟩
      rw [collectWhite, if_pos hcond]
      have honotblack : ¬(o ∈ acc ∨ o ∈ P) := by
        intro hmem
        have := (hiff o).mpr hmem
        rw [hw] at this
        cases this
      have hs1color : ∀ v, ((s.setColor o Color.black).setInCycle o true).color v =
          (if v = o then Color.black else s.color v) := by
        intro v
        rw [setInCycle_color, setColor_color]
      have hs1iff : ∀ v, ((s.setColor o Color.black).setInCycle o true).color v =
          Color.black ↔ (v ∈ acc ∨ v ∈ o :: P) := by
        intro v
        rw [hs1color]
        by_cases hv : v = o
        · subst hv
          simp
        · rw [if_neg hv, hiff v]
          simp [hv]
      have hs1dom : ∀ v, ((s.setColor o Color.black).setInCycle o true).color v =
          Color.white ∨ ((s.setColor o Color.black).setInCycle o true).color v =
          Color.black := by
        intro v
        rw [hs1color]
        by_cases hv : v = o
        · simp [hv]
        · simp [hv, hdom v]
      have hs1buf : ∀ v, (((s.setColor o Color.black).setInCycle o true).hd
          v).buffered = false := by
        intro v
        by_cases hv : v = o
        · subst hv
          simp only [St.setInCycle, St.setColor, upd_hd, if_pos rfl]
          simpa using hbuf v
        · simp only [St.setInCycle, St.setColor, upd_hd, if_neg hv]
          exact hbuf v
      have hs1lk : ∀ v, (((s.setColor o Color.black).setInCycle o true).hd
          v).leaked = false := by
        intro v
        by_cases hv : v = o
        · subst hv
          simp only [St.setInCycle, St.setColor, upd_hd, if_pos rfl]
          simpa using hlk v
        · simp only [St.setInCycle, St.setColor, upd_hd, if_neg hv]
          exact hlk v
      have howhite : o ∈ whiteF s := mem_whiteF.mpr hw
      have hs1card : (whiteF ((s.setColor o Color.black).setInCycle o true)).card
          < fuel := by
        rw [whiteF_blacken, Finset.card_erase_of_mem howhite]
        have h1 : 0 < (whiteF s).card := Finset.card_pos.mpr ⟨o, howhite⟩
        omega
      have hs1sub : whiteF ((s.setColor o Color.black).setInCycle o true) ⊆
          whiteF s := by
        rw [whiteF_blacken]
        exact Finset.erase_subset o (whiteF s)
      have hcl1 : ∀ u ∈ acc, ∀ c ∈ ch u, c ∈ acc ∨ c ∈ o :: P := by
        intro u hu c hc
        rcases hcl u hu c hc with h | h
        · exact Or.inl h
        · exact Or.inr (List.mem_cons_of_mem o h)
      have FOLD : ∀ (l : List (Fin n)) (t : St n) (acc2 : List (Fin n)),
          whiteF t ⊆ whiteF ((s.setColor o Color.black).setInCycle o true) →
          (∀ v, t.color v = Color.black ↔ (v ∈ acc2 ∨ v ∈ o :: P)) →
          (∀ v, t.color v = Color.white ∨ t.color v = Color.black) →
          (∀ v, (t.hd v).buffered = false) →
          (∀ v, (t.hd v).leaked = false) →
          (∀ u ∈ acc2, ∀ c ∈ ch u, c ∈ acc2 ∨ c ∈ o :: P) →
          (∀ x ∈ acc2, x ∈ (l.foldl (fun (p : St n × List (Fin n)) c =>
            if ((p.1).hd c).leaked then p
            else collectWhite ch fuel p.1 c p.2) (t, acc2)).2) ∧
          (∀ x ∈ l, x ∈ (l.foldl (fun (p : St n × List (Fin n)) c =>
            if ((p.1).hd c).leaked then p
            else collectWhite ch fuel p.1 c p.2) (t, acc2)).2 ∨ x ∈ o :: P) ∧
          (∀ u ∈ (l.foldl (fun (p : St n × List (Fin n)) c =>
              if ((p.1).hd c).leaked then p
              else collectWhite ch fuel p.1 c p.2) (t, acc2)).2, ∀ c ∈ ch u,
            c ∈ (l.foldl (fun (p : St n × List (Fin n)) c =>
              if ((p.1).hd c).leaked then p
              else collectWhite ch fuel p.1 c p.2) (t, acc2)).2 ∨ c ∈ o :: P) ∧
          (∀ v, ((l.foldl (fun (p : St n × List (Fin n)) c =>
            if ((p.1).hd c).leaked then p
            else collectWhite ch fuel p.1 c p.2) (t, acc2)).1.color v = Color.black ↔
            (v ∈ (l.foldl (fun (p : St n × List (Fin n)) c =>
              if ((p.1).hd c).leaked then p
              else collectWhite ch fuel p.1 c p.2) (t, acc2)).2 ∨ v ∈ o :: P))) ∧
          (∀ v, (l.foldl (fun (p : St n × List (Fin n)) c =>
            if ((p.1).hd c).leaked then p
            else collectWhite ch fuel p.1 c p.2) (t, acc2)).1.color v = Color.white ∨
            (l.foldl (fun (p : St n × List (Fin n)) c =>
              if ((p.1).hd c).leaked then p
              else collectWhite ch fuel p.1 c p.2) (t, acc2)).1.color v =
              Color.black) ∧
          (∀ v, ((l.foldl (fun (p : St n × List (Fin n)) c =>
            if ((p.1).hd c).leaked then p
            else collectWhite ch fuel p.1 c p.2) (t, acc2)).1.hd v).buffered =
            false) ∧
          (∀ v, ((l.foldl (fun (p : St n × List (Fin n)) c =>
            if ((p.1).hd c).leaked then p
            else collectWhite ch fuel p.1 c p.2) (t, acc2)).1.hd v).leaked =
            false) ∧
          whiteF (l.foldl (fun (p : St n × List (Fin n)) c =>
            if ((p.1).hd c).leaked then p
            else collectWhite ch fuel p.1 c p.2) (t, acc2)).1 ⊆
            whiteF ((s.setColor o Color.black).setInCycle o true) := by
        intro l
        induction l with
        | nil =>
          intro t acc2 hsub hiff2 hdom2 hbuf2 hlk2 hcl2
          simp only [List.foldl_nil]
          exact ⟨fun x hx => hx, by simp, hcl2, hiff2, hdom2, hbuf2, hlk2, hsub⟩
        | cons c l2 ihl =>
          intro t acc2 hsub hiff2 hdom2 hbuf2 hlk2 hcl2
          rw [List.foldl_cons]
          have hstep : (if ((t, acc2).1.hd c).leaked then (t, acc2)
              else collectWhite ch fuel (t, acc2).1 c (t, acc2).2) =
              collectWhite ch fuel t c acc2 := by
            rw [hlk2 c]
            simp
          rw [hstep]
          have hcardt : (whiteF t).card < fuel := by
            calc (whiteF t).card
                ≤ (whiteF ((s.setColor o Color.black).setInCycle o true)).card :=
                  Finset.card_le_card hsub
              _ < fuel := hs1card
          obtain ⟨m1, m2, m3, m4, m5, m6, m7⟩ :=
            ih t c acc2 (o :: P) hcardt hiff2 hdom2 hbuf2 hlk2 hcl2
          have hsubsub : whiteF (collectWhite ch fuel t c acc2).1 ⊆ whiteF t := by
            intro v hv
            rw [mem_whiteF] at hv
            rw [mem_whiteF]
            rcases hdom2 v with h | h
            · exact h
            · have hmem := (hiff2 v).mp h
              have hmem2 : v ∈ (collectWhite ch fuel t c acc2).2 ∨ v ∈ o :: P := by
                rcases hmem with h2 | h2
                · exact Or.inl (m1 v h2)
                · exact Or.inr h2
              have := (m4 v).mpr hmem2
              rw [hv] at this
              cases this
          obtain ⟨f1, f2, f3, f4, f5, f6, f7, f8⟩ :=
            ihl (collectWhite ch fuel t c acc2).1 (collectWhite ch fuel t c acc2).2
              (hsubsub.trans hsub) m4 m5 m6 m7 m3
          refine ⟨fun x hx => f1 x (m1 x hx), ?_, f3, f4, f5, f6, f7, f8⟩
          intro x hx
          rcases List.mem_cons.mp hx with h | h
          · subst h
            rcases m2 with h2 | h2
            · exact Or.inl (f1 x h2)
            · exact Or.inr h2
          · exact f2 x h
      obtain ⟨F1, F2, F3, F4, F5, F6, F7, F8⟩ := FOLD (ch o)
        ((s.setColor o Color.black).setInCycle o true) acc
        (Finset.Subset.refl _) hs1iff hs1dom hs1buf hs1lk hcl1
      constructor
      · intro x hx
        exact List.mem_append_left _ (F1 x hx)
      constructor
      · exact Or.inl (List.mem_append_right _ (List.mem_singleton_self o))
      constructor
      · intro u hu c hc
        rcases List.mem_append.mp hu with h | h
        · rcases F3 u h c hc with h2 | h2
          · exact Or.inl (List.mem_append_left _ h2)
          · rcases List.mem_cons.mp h2 with h3 | h3
            · subst h3
              exact Or.inl (List.mem_append_right _ (List.mem_singleton_self c))
            · exact Or.inr h3
        · have hu2 : u = o := List.mem_singleton.mp h
          subst hu2
          rcases F2 c hc with h2 | h2
          · exact Or.inl (List.mem_append_left _ h2)
          · rcases List.mem_cons.mp h2 with h3 | h3
            · subst h3
              exact Or.inl (List.mem_append_right _ (List.mem_singleton_self c))
            · exact Or.inr h3
      constructor
      · intro v
        rw [F4 v]
        constructor
        · rintro (h | h)
          · exact Or.inl (List.mem_append_left _ h)
          · rcases List.mem_cons.mp h with h2 | h2
            · subst h2
              exact Or.inl (List.mem_append_right _ (List.mem_singleton_self v))
            · exact Or.inr h2
        · rintro (h | h)
          · rcases List.mem_append.mp h with h2 | h2
            · exact Or.inl h2
            · rw [List.mem_singleton.mp h2]
              exact Or.inr (List.mem_cons_self o P)
          · exact Or.inr (List.mem_cons_of_mem o h)
      · exact ⟨F5, F6, F7⟩
    · have hcond : ¬(s.color o = Color.white ∧ s.buffered o = false) := by
        intro h
        exact hw h.1
      rw [collectWhite, if_neg hcond]
      have hoblack : s.color o = Color.black := by
        rcases hdom o with h | h
        · exact absurd h hw
        · exact h
      refine ⟨fun x hx => hx, ?_, hcl, hiff, hdom, hbuf, hlk⟩
      exact (hiff o).mp hoblack

end RPGc

namespace RPGc

theorem dropOnlyStep_hd (t : St n) (i v : Fin n) :
    ((dropOnlyStep t i).hd v) =
      if v = i then { t.hd v with isDrop := true } else t.hd v := by
  simp [dropOnlyStep, St.pushEvent, upd_hd]

theorem deallocOnlyStep_hd (t : St n) (i v : Fin n) :
    ((deallocOnlyStep t i).hd v) =
      if v = i then { t.hd v with isDealloc := true } else t.hd v := by
  simp [deallocOnlyStep, St.pushEvent, upd_hd]

/-- The destructor pass sets the one-shot drop guard of exactly the list's
members. -/
theorem dropPass_isDrop :
    ∀ (l : List (Fin n)) (t : St n) (v : Fin n),
      ((l.foldl (fun t j => dropOnlyStep t j) t).hd v).isDrop =
        ((t.hd v).isDrop || decide (v ∈ l)) := by
  intro l
  induction l with
  | nil =>
    intro t v
    simp
  | cons i l2 ih =>
    intro t v
    rw [List.foldl_cons, ih, dropOnlyStep_hd]
    by_cases hv : v = i
    · subst hv
      simp
    · simp [hv]

/-- The destructor pass leaves the dealloc guard alone. -/
theorem dropPass_isDealloc :
    ∀ (l : List (Fin n)) (t : St n) (v : Fin n),
      ((l.foldl (fun t j => dropOnlyStep t j) t).hd v).isDealloc =
        (t.hd v).isDealloc := by
  intro l
  induction l with
  | nil =>
    intro t v
    simp
  | cons i l2 ih =>
    intro t v
    rw [List.foldl_cons, ih, dropOnlyStep_hd]
    by_cases hv : v = i
    · subst hv
      simp
    · simp [hv]

/-- The dealloc pass sets the one-shot dealloc guard of exactly the list's
members. -/
theorem deallocPass_isDealloc :
    ∀ (l : List (Fin n)) (t : St n) (v : Fin n),
      ((l.foldl (fun t j => deallocOnlyStep t j) t).hd v).isDealloc =
        ((t.hd v).isDealloc || decide (v ∈ l)) := by
  intro l
  induction l with
  | nil =>
    intro t v
    simp
  | cons i l2 ih =>
    intro t v
    rw [List.foldl_cons, ih, deallocOnlyStep_hd]
    by_cases hv : v = i
    · subst hv
      simp
    · simp [hv]

/-- The dealloc pass leaves the drop guard alone. -/
theorem deallocPass_isDrop :
    ∀ (l : List (Fin n)) (t : St n) (v : Fin n),
      ((l.foldl (fun t j => deallocOnlyStep t j) t).hd v).isDrop =
        (t.hd v).isDrop := by
  intro l
  induction l with
  | nil =>
    intro t v
    simp
  | cons i l2 ih =>
    intro t v
    rw [List.foldl_cons, ih, deallocOnlyStep_hd]
    by_cases hv : v = i
    · subst hv
      simp
    · simp [hv]

/-- On a heap where every ref count is already 0 and nothing is leaked, the
balancing increments of `free_cycles` step 0 do nothing. -/
theorem freeCyclesInc_id (ch : Fin n → List (Fin n)) (s : St n)
    (w : List (Fin n)) (hrc : ∀ v, s.rc v = 0)
    (hlk : ∀ v, (s.hd v).leaked = false) :
    freeCyclesInc ch s w = s := by
  have inner : ∀ (l : List (Fin n)),
      l.foldl (fun t c =>
        if (t.hd c).leaked then t
        else if 0 < t.rc c then t.incRc c else t) s = s := by
    intro l
    induction l with
    | nil => rfl
    | cons c l2 ih =>
      rw [List.foldl_cons]
      have hstep : (if (s.hd c).leaked then s
          else if 0 < s.rc c then s.incRc c else s) = s := by
        simp [hlk c, hrc c]
      rw [hstep]
      exact ih
  unfold freeCyclesInc
  induction w with
  | nil => rfl
  | cons i w2 ih =>
    rw [List.foldl_cons, inner (ch i)]
    exact ih

end RPGc

namespace RPGc

/-- Mark phase on a fully purple, internally referenced, buffered cycle: the
first buffered root grays the whole strongly connected heap and cancels every
internal reference, the remaining buffer entries are merely unbuffered, and
the buffer ends holding exactly the first root. -/
theorem markRoots_grays (ch : Fin n → List (Fin n)) (fuel : Nat) (s : St n)
    (b : Fin n) (rest : List (Fin n))
    (hroots : s.roots = b :: rest)
    (hnodup : (b :: rest).Nodup)
    (hpurple : ∀ v, s.color v = Color.purple)
    (hbufiff : ∀ v, ((s.hd v).buffered = true ↔ v ∈ s.roots))
    (hlk : ∀ v, (s.hd v).leaked = false)
    (hrc : ∀ v, s.rc v = indeg ch v)
    (hreach : ∀ v, Reach ch b v)
    (hfuel : n < fuel) :
    (∀ v, (markRoots ch fuel s).1.color v = Color.gray) ∧
    (∀ v, (markRoots ch fuel s).1.rc v = 0) ∧
    (∀ v, ((markRoots ch fuel s).1.hd v).leaked = false) ∧
    (markRoots ch fuel s).1.roots = [b] ∧
    (∀ v, (((markRoots ch fuel s).1.hd v).buffered = true ↔ v = b)) := by
  have h0 : markRoots ch fuel s =
      ({ ((b :: rest).foldl (markRootsStep ch fuel)
            (({ s with roots := [] } : St n), [], 0)).1 with
          roots := ((b :: rest).foldl (markRootsStep ch fuel)
              (({ s with roots := [] } : St n), [], 0)).1.roots ++
            ((b :: rest).foldl (markRootsStep ch fuel)
              (({ s with roots := [] } : St n), [], 0)).2.1 },
        ((b :: rest).foldl (markRootsStep ch fuel)
          (({ s with roots := [] } : St n), [], 0)).2.2) := by
    rw [markRoots, hroots]
  have hstep1 : markRootsStep ch fuel (({ s with roots := [] } : St n), [], 0) b =
      (markGray ch fuel ({ s with roots := [] } : St n) b, [b], 0) := by
    have hc : (({ s with roots := [] } : St n)).color b = Color.purple := hpurple b
    simp [markRootsStep, hc]
  have hgray0 : grayF ({ s with roots := [] } : St n) = ∅ := by
    ext v
    rw [mem_grayF]
    have hcv : (({ s with roots := [] } : St n)).color v = Color.purple := hpurple v
    rw [hcv]
    simp
  have hfuel0 : (Finset.univ \ grayF ({ s with roots := [] } : St n)).card < fuel := by
    rw [hgray0, Finset.sdiff_empty, Finset.card_univ, Fintype.card_fin]
    exact hfuel
  have hbudget : ∀ v, decFrom ch
      (Finset.univ \ grayF ({ s with roots := [] } : St n)) v + (fun _ => 0) v ≤
      (({ s with roots := [] } : St n)).rc v := by
    intro v
    rw [hgray0, Finset.sdiff_empty]
    have hv : (({ s with roots := [] } : St n)).rc v = indeg ch v := hrc v
    rw [hv]
    show decFrom ch Finset.univ v + 0 ≤ decFrom ch Finset.univ v
    omega
  have hlk0 : ∀ v, ((({ s with roots := [] } : St n)).hd v).leaked = false :=
    fun v => hlk v
  obtain ⟨g1, g2, g3, g4, g5⟩ := markGray_spec ch fuel
    ({ s with roots := [] } : St n) b (fun _ => 0) hfuel0 hbudget hlk0
  rw [hgray0, Finset.sdiff_empty] at g3 g4
  have hcov : ∀ v, v ∈ grayF (markGray ch fuel ({ s with roots := [] } : St n) b) := by
    intro v
    have hr : Relation.ReflTransGen (fun a c => c ∈ ch a) b v := hreach v
    induction hr with
    | refl => exact g2
    | tail h1 h2 ih => exact g3 _ ih _ h2
  have hguniv : grayF (markGray ch fuel ({ s with roots := [] } : St n) b) =
      Finset.univ := Finset.eq_univ_iff_forall.mpr hcov
  have hcol1 : ∀ v, (markGray ch fuel ({ s with roots := [] } : St n) b).color v =
      Color.gray := fun v => mem_grayF.mp (hcov v)
  have hrc1 : ∀ v, (markGray ch fuel ({ s with roots := [] } : St n) b).rc v = 0 := by
    intro v
    have h := g4 v
    rw [hguniv] at h
    have h2 : (({ s with roots := [] } : St n)).rc v = decFrom ch Finset.univ v :=
      hrc v
    omega
  have hfr := markGray_hframe ch fuel ({ s with roots := [] } : St n) b
  have hlk1 : ∀ v, ((markGray ch fuel ({ s with roots := [] } : St n) b).hd
      v).leaked = false := by
    intro v
    rw [(hfr.2.2.2 v).2.2.2.2]
    exact hlk v
  have hroots1 : (markGray ch fuel ({ s with roots := [] } : St n) b).roots = [] :=
    hfr.1
  have hbuf1 : ∀ v, (((markGray ch fuel ({ s with roots := [] } : St n) b).hd
      v).buffered = true ↔ (v = b ∨ v ∈ rest)) := by
    intro v
    rw [(hfr.2.2.2 v).1]
    have h := hbufiff v
    rw [hroots] at h
    rw [h]
    simp
  have FOLD : ∀ (l : List (Fin n)) (t : St n) (A : List (Fin n)) (c0 : Nat),
      (∀ v, t.color v = Color.gray) →
      (∀ v, t.rc v = 0) →
      (∀ v, (t.hd v).leaked = false) →
      t.roots = [] →
      l.Nodup → b ∉ l →
      (∀ v, ((t.hd v).buffered = true ↔ (v = b ∨ v ∈ l))) →
      (∀ v, (l.foldl (markRootsStep ch fuel) (t, A, c0)).1.color v = Color.gray) ∧
      (∀ v, (l.foldl (markRootsStep ch fuel) (t, A, c0)).1.rc v = 0) ∧
      (∀ v, ((l.foldl (markRootsStep ch fuel) (t, A, c0)).1.hd v).leaked = false) ∧
      (l.foldl (markRootsStep ch fuel) (t, A, c0)).1.roots = [] ∧
      (∀ v, (((l.foldl (markRootsStep ch fuel) (t, A, c0)).1.hd v).buffered = true ↔
        v = b)) ∧
      (l.foldl (markRootsStep ch fuel) (t, A, c0)).2.1 = A ∧
      (l.foldl (markRootsStep ch fuel) (t, A, c0)).2.2 = c0 := by
    intro l
    induction l with
    | nil =>
      intro t A c0 h1 h2 h3 h4 _ _ h7
      refine ⟨fun v => h1 v, fun v => h2 v, fun v => h3 v, h4, fun v => ?_, rfl, rfl⟩
      rw [List.foldl_nil, h7 v]
      simp
    | cons r l2 ihl =>
      intro t A c0 h1 h2 h3 h4 hnd hbl h7
      rw [List.foldl_cons]
      have hstep : markRootsStep ch fuel (t, A, c0) r = (t.setBuffered r false, A, c0) := by
        have hnp : ¬(t.color r = Color.purple) := by
          rw [h1 r]
          simp
        have hnb : ¬((t.setBuffered r false).color r = Color.black ∧
            (t.setBuffered r false).rc r = 0) := by
          rw [(setBuffered_frame t r false r).1, h1 r]
          simp
        simp [markRootsStep, hnp, hnb]
      rw [hstep]
      refine ihl (t.setBuffered r false) A c0 ?_ ?_ ?_ ?_ ?_ ?_ ?_
      · intro v
        rw [(setBuffered_frame t r false v).1]
        exact h1 v
      · intro v
        have h := (setBuffered_frame t r false v).2.2.1
        show ((t.setBuffered r false).hd v).rc = 0
        rw [h]
        exact h2 v
      · intro v
        rw [(setBuffered_frame t r false v).2.2.2.1]
        exact h3 v
      · rw [(setBuffered_frame t r false r).2.2.2.2.1]
        exact h4
      · exact (List.nodup_cons.mp hnd).2
      · intro hmem
        exact hbl (List.mem_cons_of_mem r hmem)
      · intro v
        rw [setBuffered_buffered]
        by_cases hv : v = r
        · subst hv
          simp only [if_pos rfl]
        
          constructor
          · intro h
            cases h
          · rintro (h | h)
            · exact absurd (h ▸ List.mem_cons_self v l2) hbl
            · exact absurd h (List.nodup_cons.mp hnd).1
        · rw [if_neg hv, h7 v]
          simp [hv]
  obtain ⟨F1, F2, F3, F4, F5, F6, F7⟩ := FOLD rest
    (markGray ch fuel ({ s with roots := [] } : St n) b) [b] 0
    hcol1 hrc1 hlk1 hroots1 (List.nodup_cons.mp hnodup).2
    (List.nodup_cons.mp hnodup).1 hbuf1
  rw [h0, List.foldl_cons, hstep1]
  refine ⟨fun v => F1 v, fun v => F2 v, fun v => F3 v, ?_, fun v => F5 v⟩
  rw [F4, F6]
  rfl

end RPGc

namespace RPGc

/-- Scan phase after the trial deletion cancelled every internal reference:
scanning the single remaining root whitens the whole strongly connected heap
while keeping ref counts at 0, the buffer and the buffered flags. -/
theorem scanRoots_whitens (ch : Fin n → List (Fin n)) (fuel : Nat) (m : St n)
    (b : Fin n)
    (hroots : m.roots = [b])
    (hgray : ∀ v, m.color v = Color.gray)
    (hrc : ∀ v, m.rc v = 0)
    (hlk : ∀ v, (m.hd v).leaked = false)
    (hbuf : ∀ v, ((m.hd v).buffered = true ↔ v = b))
    (hreach : ∀ v, Reach ch b v)
    (hfuel : n < fuel) :
    (∀ v, (scanRoots ch fuel m).color v = Color.white) ∧
    (∀ v, (scanRoots ch fuel m).rc v = 0) ∧
    (∀ v, ((scanRoots ch fuel m).hd v).leaked = false) ∧
    (scanRoots ch fuel m).roots = [b] ∧
    (∀ v, (((scanRoots ch fuel m).hd v).buffered = true ↔ v = b)) := by
  have h0 : scanRoots ch fuel m = scan ch fuel m b := by
    rw [scanRoots, hroots]
    rw [List.foldl_cons, List.foldl_nil]
  have hw0 : whiteF m = ∅ := by
    ext v
    rw [mem_whiteF, hgray v]
    simp
  have hfuel0 : (Finset.univ \ whiteF m).card < fuel := by
    rw [hw0, Finset.sdiff_empty, Finset.card_univ, Fintype.card_fin]
    exact hfuel
  have hdom0 : ∀ v, m.color v = Color.gray ∨ m.color v = Color.white :=
    fun v => Or.inl (hgray v)
  obtain ⟨w1, w2, w3, w4, w5, w6⟩ := scan_whitens ch fuel m b hfuel0 hdom0 hrc hlk
  rw [hw0, Finset.sdiff_empty] at w3
  have hcov : ∀ v, v ∈ whiteF (scan ch fuel m b) := by
    intro v
    have hr : Relation.ReflTransGen (fun a c => c ∈ ch a) b v := hreach v
    induction hr with
    | refl => exact w2
    | tail h1 h2 ih => exact w3 _ ih _ h2
  have hfr := scan_hframe ch fuel m b
  rw [h0]
  refine ⟨fun v => mem_whiteF.mp (hcov v), w5, w6, ?_, ?_⟩
  · rw [hfr.1]
    exact hroots
  · intro v
    rw [(hfr.2.2.2 v).1]
    exact hbuf v

end RPGc

namespace RPGc

/-- Collect phase on the fully whitened, reference-free cycle with no
`__del__` finalizers: the single buffered root's `collect_white` walk gathers
every object exactly once, `free_cycles` runs the destructor pass and the
dealloc pass over all of them, and the cyclic tally is the heap size. -/
theorem collectRoots_frees (ch : Fin n → List (Fin n))
    (del : Fin n → Option (St n → St n)) (fuel : Nat) (w : St n) (b : Fin n)
    (hroots : w.roots = [b])
    (hwhite : ∀ v, w.color v = Color.white)
    (hrc : ∀ v, w.rc v = 0)
    (hlk : ∀ v, (w.hd v).leaked = false)
    (hbuf : ∀ v, ((w.hd v).buffered = true ↔ v = b))
    (hreach : ∀ v, Reach ch b v)
    (hdel : ∀ i, del i = none)
    (hfuel : n < fuel) :
    (collectRoots ch del fuel w).2 = n ∧
    (∀ v, (((collectRoots ch del fuel w).1.hd v).isDrop = true ∧
      ((collectRoots ch del fuel w).1.hd v).isDealloc = true)) := by
  have hA : collectRootsWhite ch fuel w =
      collectWhite ch fuel (({ w with roots := [] } : St n).setBuffered b false)
        b [] := by
    rw [collectRootsWhite, hroots]
    rw [List.foldl_cons, List.foldl_nil]
    rfl
  have hBcol : ∀ v, (({ w with roots := [] } : St n).setBuffered b false).color v =
      Color.white := by
    intro v
    rw [(setBuffered_frame ({ w with roots := [] } : St n) b false v).1]
    exact hwhite v
  have hBrc : ∀ v, ((({ w with roots := [] } : St n).setBuffered b false).hd
      v).rc = 0 := by
    intro v
    rw [(setBuffered_frame ({ w with roots := [] } : St n) b false v).2.2.1]
    exact hrc v
  have hBlk : ∀ v, ((({ w with roots := [] } : St n).setBuffered b false).hd
      v).leaked = false := by
    intro v
    rw [(setBuffered_frame ({ w with roots := [] } : St n) b false v).2.2.2.1]
    exact hlk v
  have hBbuf : ∀ v, ((({ w with roots := [] } : St n).setBuffered b false).hd
      v).buffered = false := by
    intro v
    rw [setBuffered_buffered]
    by_cases hv : v = b
    · simp [hv]
    · rw [if_neg hv]
      cases hval : (w.hd v).buffered
      · rfl
      · exact absurd ((hbuf v).mp hval) hv
  have hWuniv : whiteF (({ w with roots := [] } : St n).setBuffered b false) =
      Finset.univ := by
    refine Finset.eq_univ_iff_forall.mpr ?_
    intro v
    exact mem_whiteF.mpr (hBcol v)
  have hfuelB : (whiteF (({ w with roots := [] } : St n).setBuffered b
      false)).card < fuel := by
    rw [hWuniv, Finset.card_univ, Fintype.card_fin]
    exact hfuel
  have hiffB : ∀ v, (({ w with roots := [] } : St n).setBuffered b false).color v =
      Color.black ↔ (v ∈ ([] : List (Fin n)) ∨ v ∈ ([] : List (Fin n))) := by
    intro v
    rw [hBcol v]
    simp
  obtain ⟨K1, K2, K3, K4, K5, K6, K7⟩ := collectWhite_covers ch fuel
    (({ w with roots := [] } : St n).setBuffered b false) b [] []
    hfuelB hiffB (fun v => Or.inl (hBcol v)) hBbuf hBlk
    (by intro u hu; cases hu)
  have hbW : b ∈ (collectWhite ch fuel
      (({ w with roots := [] } : St n).setBuffered b false) b []).2 := by
    rcases K2 with h | h
    · exact h
    · cases h
  have hWcov : ∀ v, v ∈ (collectWhite ch fuel
      (({ w with roots := [] } : St n).setBuffered b false) b []).2 := by
    intro v
    have hr : Relation.ReflTransGen (fun a c => c ∈ ch a) b v := hreach v
    induction hr with
    | refl => exact hbW
    | tail h1 h2 ih =>
      rcases K3 _ ih _ h2 with h | h
      · exact h
      · cases h
  have R := collectWhite_rel ch fuel
    (({ w with roots := [] } : St n).setBuffered b false) b []
  have hWnodup : (collectWhite ch fuel
      (({ w with roots := [] } : St n).setBuffered b false) b []).2.Nodup :=
    (R.2.2.2.2.2.2 ⟨List.nodup_nil, by intro v hv; cases hv⟩).1
  have hlen : (collectWhite ch fuel
      (({ w with roots := [] } : St n).setBuffered b false) b []).2.length = n := by
    have h1 : (collectWhite ch fuel
        (({ w with roots := [] } : St n).setBuffered b false) b []).2.toFinset =
        Finset.univ :=
      Finset.eq_univ_iff_forall.mpr (fun v => List.mem_toFinset.mpr (hWcov v))
    have h2 := List.toFinset_card_of_nodup hWnodup
    rw [h1, Finset.card_univ, Fintype.card_fin] at h2
    omega
  have R6 := R.2.2.2.2.2.1
  have hrcCw : ∀ v, (collectWhite ch fuel
      (({ w with roots := [] } : St n).setBuffered b false) b []).1.rc v = 0 := by
    intro v
    show ((collectWhite ch fuel
      (({ w with roots := [] } : St n).setBuffered b false) b []).1.hd v).rc = 0
    rw [(R6.2.2 v).2.1]
    exact hBrc v
  have hlkCw : ∀ v, ((collectWhite ch fuel
      (({ w with roots := [] } : St n).setBuffered b false) b []).1.hd
      v).leaked = false := by
    intro v
    rw [(R6.2.2 v).2.2.1]
    exact hBlk v
  have hfilter : freeCyclesFilter del
      (collectWhite ch fuel
        (({ w with roots := [] } : St n).setBuffered b false) b []).1
      (collectWhite ch fuel
        (({ w with roots := [] } : St n).setBuffered b false) b []).2 =
      ((collectWhite ch fuel
        (({ w with roots := [] } : St n).setBuffered b false) b []).1, [],
       (collectWhite ch fuel
        (({ w with roots := [] } : St n).setBuffered b false) b []).2) := by
    rw [freeCyclesFilter, filter_noDel_seg del _ (fun j _ => hdel j) _ [] []]
    rw [List.nil_append]
  have hcr : collectRoots ch del fuel w =
      ((freeCycles ch del
        (collectWhite ch fuel
          (({ w with roots := [] } : St n).setBuffered b false) b []).1
        (collectWhite ch fuel
          (({ w with roots := [] } : St n).setBuffered b false) b []).2).1,
       (collectWhite ch fuel
          (({ w with roots := [] } : St n).setBuffered b false) b []).2.length) := by
    rw [collectRoots, hA]
  have hfc : freeCycles ch del
      (collectWhite ch fuel
        (({ w with roots := [] } : St n).setBuffered b false) b []).1
      (collectWhite ch fuel
        (({ w with roots := [] } : St n).setBuffered b false) b []).2 =
      ((collectWhite ch fuel
          (({ w with roots := [] } : St n).setBuffered b false) b []).2.foldl
        (fun t i => deallocOnlyStep t i)
        ((collectWhite ch fuel
            (({ w with roots := [] } : St n).setBuffered b false) b []).2.foldl
          (fun t i => dropOnlyStep t i)
          ({ (collectWhite ch fuel
              (({ w with roots := [] } : St n).setBuffered b false) b []).1 with
            roots := (collectWhite ch fuel
              (({ w with roots := [] } : St n).setBuffered b false) b
              []).1.roots ++ [] })),
       (collectWhite ch fuel
          (({ w with roots := [] } : St n).setBuffered b false) b []).2.length) := by
    simp only [freeCycles]
    rw [freeCyclesInc_id ch _ _ hrcCw hlkCw, hfilter]
  rw [hcr, hfc]
  refine ⟨hlen, ?_⟩
  intro v
  constructor
  · rw [deallocPass_isDrop, dropPass_isDrop]
    simp [hWcov v]
  · rw [deallocPass_isDealloc]
    simp [hWcov v]

end RPGc

namespace RPGc

/-- C1: for a garbage cycle of `n` objects whose only incoming strong
references come from inside the cycle (every ref count equals the internal
in-degree), with the cycle's candidate roots buffered (Purple, flags
consistent with the buffer) and no `__del__` finalizers, a forced
`collect_cycles` pass reports a cyclic count of at least `n` and frees every
object: each one has its destructor step and its dealloc step performed. -/
theorem C1_cycle_reclamation (ch : Fin n → List (Fin n))
    (del : Fin n → Option (St n → St n)) (fuel : Nat) (s : St n)
    (b : Fin n) (rest : List (Fin n))
    (hroots : s.roots = b :: rest)
    (hnodup : (b :: rest).Nodup)
    (hpurple : ∀ v, s.color v = Color.purple)
    (hbufiff : ∀ v, ((s.hd v).buffered = true ↔ v ∈ s.roots))
    (hlk : ∀ v, (s.hd v).leaked = false)
    (hrc : ∀ v, s.rc v = indeg ch v)
    (hreach : ∀ v, Reach ch b v)
    (hdel : ∀ i, del i = none)
    (hfuel : n < fuel) :
    n ≤ (collectCycles ch del fuel s true).2.2 ∧
    (∀ v, (((collectCycles ch del fuel s true).1.hd v).isDrop = true ∧
      ((collectCycles ch del fuel s true).1.hd v).isDealloc = true)) := by
  have hne : ¬(s.roots.length = 0) := by
    rw [hroots]
    simp
  have hcc : collectCycles ch del fuel s true =
      ((collectRoots ch del fuel (scanRoots ch fuel (markRoots ch fuel s).1)).1,
       (markRoots ch fuel s).2,
       (collectRoots ch del fuel (scanRoots ch fuel (markRoots ch fuel s).1)).2) := by
    rw [collectCycles, if_neg hne]
  obtain ⟨M1, M2, M3, M4, M5⟩ := markRoots_grays ch fuel s b rest hroots hnodup
    hpurple hbufiff hlk hrc hreach hfuel
  obtain ⟨S1, S2, S3, S4, S5⟩ := scanRoots_whitens ch fuel (markRoots ch fuel s).1
    b M4 M1 M2 M3 M5 hreach hfuel
  obtain ⟨Cf1, Cf2⟩ := collectRoots_frees ch del fuel
    (scanRoots ch fuel (markRoots ch fuel s).1) b S4 S1 S2 S3 S5 hreach hdel hfuel
  rw [hcc]
  exact ⟨le_of_eq Cf1.symm, Cf2⟩

theorem C1_cycle_reclamation_witness :
    1 ≤ (collectCycles chLoop delNone1 2 stLoop true).2.2 ∧
    (∀ v, (((collectCycles chLoop delNone1 2 stLoop true).1.hd v).isDrop = true ∧
      ((collectCycles chLoop delNone1 2 stLoop true).1.hd v).isDealloc = true)) := by
  have h1 : stLoop.roots = (0 : Fin 1) :: [] := by decide
  have h2 : ((0 : Fin 1) :: []).Nodup := by decide
  have h3 : ∀ v : Fin 1, stLoop.color v = Color.purple := by decide
  have h4 : ∀ v : Fin 1, ((stLoop.hd v).buffered = true ↔ v ∈ stLoop.roots) := by
    decide
  have h5 : ∀ v : Fin 1, (stLoop.hd v).leaked = false := by decide
  have h6 : ∀ v : Fin 1, stLoop.rc v = indeg chLoop v := by decide
  have h7 : ∀ v : Fin 1, Reach chLoop 0 v := by
    intro v
    have h : (0 : Fin 1) = v := Subsingleton.elim 0 v
    subst h
    exact Relation.ReflTransGen.refl
  have h8 : ∀ i : Fin 1, delNone1 i = none := fun i => rfl
  have h9 : 1 < 2 := by decide
  exact C1_cycle_reclamation chLoop delNone1 2 stLoop 0 [] h1 h2 h3 h4 h5 h6 h7
    h8 h9

end RPGc
